import Mathlib

/-!
Verification of the backup endpoint (components/backup/src/endpoint.rs).

The development shallowly embeds the planner (`seek_backup_range`), the
dispatcher (`dispatch_backup_range`), the task handler (`handle_backup_task`)
and the runner (`Runnable::run`) over lists of bytes.  Machine bytes are
modelled as `Nat`; byte strings as `List Nat`.  Rust slice comparison on
`&[u8]` is lexicographic, modelled by `bytesLt`.  Panics (`unwrap` on `None` /
`Err`) are modelled by an `Option` result: `none` means the surrounding
computation panicked.
-/

set_option maxRecDepth 8000

namespace Backup

/-- Bytes of a key, raw or encoded, as a list of machine bytes. -/
abbrev Bytes := List Nat

/-- Lexicographic strict order on byte strings: the comparison performed by
Rust's `Ord` instance for byte slices, used by endpoint.rs for all key
comparisons. -/
def bytesLt : Bytes → Bytes → Bool
  | _, [] => false
  | [], _ :: _ => true
  | a :: as, b :: bs => decide (a < b) || (decide (a = b) && bytesLt as bs)

theorem bytesLt_nil_right (l : Bytes) : bytesLt l [] = false := by
  cases l <;> rfl

theorem bytesLt_nil_left {l : Bytes} (h : l ≠ []) : bytesLt [] l = true := by
  cases l with
  | nil => exact absurd rfl h
  | cons a as => rfl

theorem bytesLt_cons_cons (a b : Nat) (as bs : Bytes) :
    bytesLt (a :: as) (b :: bs) =
      (decide (a < b) || (decide (a = b) && bytesLt as bs)) := rfl

theorem bytesLt_irrefl (l : Bytes) : bytesLt l l = false := by
  induction l with
  | nil => rfl
  | cons a as ih => simp [bytesLt_cons_cons, ih]

theorem bytesLt_trans : ∀ {a b c : Bytes},
    bytesLt a b = true → bytesLt b c = true → bytesLt a c = true := by
  intro a
  induction a with
  | nil =>
    intro b c hab hbc
    cases c with
    | nil => rw [bytesLt_nil_right] at hbc; exact absurd hbc (by simp)
    | cons z zs => rfl
  | cons x xs ih =>
    intro b c hab hbc
    cases b with
    | nil => rw [bytesLt_nil_right] at hab; exact absurd hab (by simp)
    | cons y ys =>
      cases c with
      | nil => rw [bytesLt_nil_right] at hbc; exact absurd hbc (by simp)
      | cons z zs =>
        rw [bytesLt_cons_cons] at hab hbc ⊢
        simp only [Bool.or_eq_true, Bool.and_eq_true, decide_eq_true_eq] at hab hbc ⊢
        rcases hab with h1 | ⟨h1, h1'⟩ <;> rcases hbc with h2 | ⟨h2, h2'⟩
        · exact Or.inl (Nat.lt_trans h1 h2)
        · exact Or.inl (h2 ▸ h1)
        · exact Or.inl (h1 ▸ h2)
        · exact Or.inr ⟨h1.trans h2, ih h1' h2'⟩

theorem bytesLt_asymm {a b : Bytes} (h : bytesLt a b = true) :
    bytesLt b a = false := by
  by_contra hc
  have hba : bytesLt b a = true := by
    cases hv : bytesLt b a with
    | true => rfl
    | false => exact absurd hv hc
  have := bytesLt_trans h hba
  rw [bytesLt_irrefl] at this
  exact absurd this (by simp)

theorem bytesLt_total {a b : Bytes} (h : a ≠ b) :
    bytesLt a b = true ∨ bytesLt b a = true := by
  induction a generalizing b with
  | nil =>
    cases b with
    | nil => exact absurd rfl h
    | cons y ys => exact Or.inl rfl
  | cons x xs ih =>
    cases b with
    | nil => exact Or.inr rfl
    | cons y ys =>
      rcases Nat.lt_trichotomy x y with hxy | hxy | hxy
      · exact Or.inl (by simp [bytesLt_cons_cons, hxy])
      · subst hxy
        have hne : xs ≠ ys := fun he => h (by rw [he])
        rcases ih hne with h1 | h1
        · exact Or.inl (by simp [bytesLt_cons_cons, h1])
        · exact Or.inr (by simp [bytesLt_cons_cons, h1])
      · exact Or.inr (by simp [bytesLt_cons_cons, hxy])

theorem bytesLt_of_not_lt_of_ne {a b : Bytes} (h : bytesLt a b = false)
    (hne : a ≠ b) : bytesLt b a = true := by
  rcases bytesLt_total hne with h1 | h1
  · rw [h1] at h; exact absurd h (by simp)
  · exact h1

/-- Prefix-equal decomposition of the lexicographic order: for equal-length
prefixes, comparing the concatenations first compares the prefixes and, when
those tie, the suffixes. -/
theorem bytesLt_append_eq : ∀ (x y u v : Bytes), x.length = y.length →
    bytesLt (x ++ u) (y ++ v) =
      (bytesLt x y || (decide (x = y) && bytesLt u v)) := by
  intro x
  induction x with
  | nil =>
    intro y u v hlen
    cases y with
    | nil => simp [bytesLt]
    | cons b bs => simp at hlen
  | cons a as ih =>
    intro y u v hlen
    cases y with
    | nil => simp at hlen
    | cons b bs =>
      simp only [List.length_cons, Nat.succ.injEq] at hlen
      simp only [List.cons_append, bytesLt_cons_cons, ih bs u v hlen]
      by_cases hab : a = b
      · subst hab
        by_cases habs : as = bs
        · subst habs
          simp [bytesLt_irrefl]
        · simp [habs, List.cons.injEq]
      · simp [hab, List.cons.injEq]

theorem bytesLt_append_same (x u v : Bytes) :
    bytesLt (x ++ u) (x ++ v) = bytesLt u v := by
  rw [bytesLt_append_eq x x u v rfl]
  simp [bytesLt_irrefl]

/-! ### Key encoding

Modelled from the spec: `Key::from_raw` / `Key::into_raw` (tikv::storage,
outside this repository's sources) implement the memcomparable byte encoding
used internally by the engine and the shard directory — "an order-preserving
transformation", with the round-trip law "raw → encoded → raw is the
identity".  The encoding pads the input in groups of 8 bytes with zero bytes
and appends a marker byte `0xFF - pad_count` after each group; a complete
group gets marker `0xFF` and the final (possibly empty) group gets marker
`0xF7 + group_len`. -/

/-- Memcomparable encoding of a raw key (model of `Key::from_raw` followed by
`into_encoded`). -/
def encode_bytes : Bytes → Bytes
  | b1 :: b2 :: b3 :: b4 :: b5 :: b6 :: b7 :: b8 :: rest =>
      b1 :: b2 :: b3 :: b4 :: b5 :: b6 :: b7 :: b8 :: 255 :: encode_bytes rest
  | short => short ++ List.replicate (8 - short.length) 0 ++ [247 + short.length]

/-- Decoding of a memcomparable-encoded key back to its raw bytes (model of
`Key::into_raw`); `none` models a decoding failure. -/
def decode_bytes : Bytes → Option Bytes
  | b1 :: b2 :: b3 :: b4 :: b5 :: b6 :: b7 :: b8 :: m :: rest =>
      if m = 255 then
        (decode_bytes rest).map
          (fun tail => b1 :: b2 :: b3 :: b4 :: b5 :: b6 :: b7 :: b8 :: tail)
      else
        if rest = [] ∧ 247 ≤ m ∧ m < 255 then
          let g : Bytes := [b1, b2, b3, b4, b5, b6, b7, b8]
          let len := m - 247
          if g.drop len = List.replicate (8 - len) 0 then some (g.take len)
          else none
        else none
  | _ => none

theorem encode_long (b1 b2 b3 b4 b5 b6 b7 b8 : Nat) (rest : Bytes) :
    encode_bytes (b1 :: b2 :: b3 :: b4 :: b5 :: b6 :: b7 :: b8 :: rest) =
      b1 :: b2 :: b3 :: b4 :: b5 :: b6 :: b7 :: b8 :: 255 :: encode_bytes rest :=
  rfl

theorem encode_short : ∀ {l : Bytes}, l.length < 8 →
    encode_bytes l = l ++ List.replicate (8 - l.length) 0 ++ [247 + l.length]
  | [], _ => rfl
  | [_], _ => rfl
  | [_, _], _ => rfl
  | [_, _, _], _ => rfl
  | [_, _, _, _], _ => rfl
  | [_, _, _, _, _], _ => rfl
  | [_, _, _, _, _, _], _ => rfl
  | [_, _, _, _, _, _, _], _ => rfl
  | _ :: _ :: _ :: _ :: _ :: _ :: _ :: _ :: _, h => by
      simp [List.length_cons] at h
      omega

theorem encode_ge8 : ∀ {l : Bytes}, 8 ≤ l.length →
    encode_bytes l = l.take 8 ++ 255 :: encode_bytes (l.drop 8) := by
  intro l h
  match l with
  | b1 :: b2 :: b3 :: b4 :: b5 :: b6 :: b7 :: b8 :: rest => rfl
  | [] | [_] | [_, _] | [_, _, _] | [_, _, _, _] | [_, _, _, _, _]
  | [_, _, _, _, _, _] | [_, _, _, _, _, _, _] => simp at h

theorem encode_ne_nil (l : Bytes) : encode_bytes l ≠ [] := by
  by_cases h : 8 ≤ l.length
  · rw [encode_ge8 h]
    intro he
    have := congrArg List.length he
    simp at this
  · rw [encode_short (by omega)]
    intro he
    have := congrArg List.length he
    simp at this

/-- Round-trip law over a length bound (fuel form used for the induction). -/
theorem decode_encode_aux : ∀ (n : Nat) (l : Bytes), l.length ≤ n →
    decode_bytes (encode_bytes l) = some l := by
  intro n
  induction n with
  | zero =>
    intro l hl
    have : l = [] := List.eq_nil_of_length_eq_zero (Nat.le_zero.mp hl)
    subst this
    rfl
  | succ n ih =>
    intro l hl
    match l with
    | [] => rfl
    | [_] => rfl
    | [_, _] => rfl
    | [_, _, _] => rfl
    | [_, _, _, _] => rfl
    | [_, _, _, _, _] => rfl
    | [_, _, _, _, _, _] => rfl
    | [_, _, _, _, _, _, _] => rfl
    | b1 :: b2 :: b3 :: b4 :: b5 :: b6 :: b7 :: b8 :: rest =>
      rw [encode_long]
      show decode_bytes (b1 :: b2 :: b3 :: b4 :: b5 :: b6 :: b7 :: b8 ::
        255 :: encode_bytes rest) = _
      rw [decode_bytes]
      have hrest : rest.length ≤ n := by
        simp [List.length_cons] at hl
        omega
      rw [if_pos rfl, ih rest hrest]
      rfl

/-- Round-trip law: decoding an encoded raw key gives back the raw key. -/
theorem decode_encode (l : Bytes) : decode_bytes (encode_bytes l) = some l :=
  decode_encode_aux l.length l le_rfl

theorem encode_injective {a b : Bytes} (h : encode_bytes a = encode_bytes b) :
    a = b := by
  have ha := decode_encode a
  have hb := decode_encode b
  rw [h, hb] at ha
  exact (Option.some.injEq _ _).mp ha.symm

/-! ### Order preservation of the encoding -/

theorem replicate_zero_lt_or_eq : ∀ (y : Bytes),
    bytesLt (List.replicate y.length 0) y = true ∨ List.replicate y.length 0 = y := by
  intro y
  induction y with
  | nil => exact Or.inr rfl
  | cons c cs ih =>
    by_cases hc : c = 0
    · subst hc
      rcases ih with h | h
      · exact Or.inl (by simp [List.replicate_succ, bytesLt_cons_cons, h])
      · exact Or.inr (by simp [List.replicate_succ, h])
    · exact Or.inl (by
        simp [List.replicate_succ, bytesLt_cons_cons, Nat.pos_of_ne_zero hc])

/-- Comparing a zero-padded short prefix against the first `n` bytes of a
longer word: the padded prefix stays below or equal. -/
theorem pad_lt_take : ∀ (n : Nat) (a b : Bytes), a.length < n → n ≤ b.length →
    bytesLt a b = true →
    bytesLt (a ++ List.replicate (n - a.length) 0) (b.take n) = true ∨
      a ++ List.replicate (n - a.length) 0 = b.take n := by
  intro n
  induction n with
  | zero => intro a b ha _ _; simp at ha
  | succ m ih =>
    intro a b ha hb hab
    cases a with
    | nil =>
      have hlen : (b.take (m + 1)).length = m + 1 := by
        simp [List.length_take]
        omega
      have := replicate_zero_lt_or_eq (b.take (m + 1))
      rw [hlen] at this
      simpa using this
    | cons x xs =>
      cases b with
      | nil => rw [bytesLt_nil_right] at hab; exact absurd hab (by simp)
      | cons y ys =>
        have hxs : xs.length < m := by simp at ha; omega
        have hys : m ≤ ys.length := by simp at hb; omega
        have hshape : (x :: xs) ++ List.replicate (m + 1 - (x :: xs).length) 0 =
            x :: (xs ++ List.replicate (m - xs.length) 0) := by
          simp [List.length_cons, Nat.succ_sub_succ]
        rw [bytesLt_cons_cons] at hab
        simp only [Bool.or_eq_true, Bool.and_eq_true, decide_eq_true_eq] at hab
        rcases hab with hxy | ⟨hxy, htail⟩
        · left
          rw [hshape, List.take_succ_cons, bytesLt_cons_cons]
          simp [hxy]
        · subst hxy
          rcases ih xs ys hxs hys htail with h | h
          · left
            rw [hshape, List.take_succ_cons, bytesLt_cons_cons]
            simp [h]
          · right
            rw [hshape, List.take_succ_cons, h]

/-- Comparing the first `n` bytes of a longer word against a zero-padded short
word that is lexicographically above it: strictness is preserved. -/
theorem take_lt_pad : ∀ (n : Nat) (a b : Bytes), b.length < n → n ≤ a.length →
    bytesLt a b = true →
    bytesLt (a.take n) (b ++ List.replicate (n - b.length) 0) = true := by
  intro n
  induction n with
  | zero => intro a b hb _ _; simp at hb
  | succ m ih =>
    intro a b hb ha hab
    cases b with
    | nil => rw [bytesLt_nil_right] at hab; exact absurd hab (by simp)
    | cons y ys =>
      cases a with
      | nil => simp at ha
      | cons x xs =>
        have hys : ys.length < m := by simp at hb; omega
        have hxs : m ≤ xs.length := by simp at ha; omega
        have hshape : (y :: ys) ++ List.replicate (m + 1 - (y :: ys).length) 0 =
            y :: (ys ++ List.replicate (m - ys.length) 0) := by
          simp [List.length_cons, Nat.succ_sub_succ]
        rw [bytesLt_cons_cons] at hab
        simp only [Bool.or_eq_true, Bool.and_eq_true, decide_eq_true_eq] at hab
        rw [hshape, List.take_succ_cons, bytesLt_cons_cons]
        rcases hab with hxy | ⟨hxy, htail⟩
        · simp [hxy]
        · subst hxy
          simp [ih xs ys hys hxs htail]

/-- Comparing two zero-padded short words: either strictness is preserved, or
the padded words coincide and the original lengths are strictly ordered. -/
theorem pad_lt_pad : ∀ (n : Nat) (a b : Bytes), a.length < n → b.length < n →
    bytesLt a b = true →
    bytesLt (a ++ List.replicate (n - a.length) 0)
        (b ++ List.replicate (n - b.length) 0) = true ∨
      (a ++ List.replicate (n - a.length) 0 = b ++ List.replicate (n - b.length) 0 ∧
        a.length < b.length) := by
  intro n
  induction n with
  | zero => intro a b ha _ _; simp at ha
  | succ m ih =>
    intro a b ha hb hab
    cases b with
    | nil => rw [bytesLt_nil_right] at hab; exact absurd hab (by simp)
    | cons y ys =>
      have hshapeb : (y :: ys) ++ List.replicate (m + 1 - (y :: ys).length) 0 =
          y :: (ys ++ List.replicate (m - ys.length) 0) := by
        simp [List.length_cons, Nat.succ_sub_succ]
      have hys : ys.length < m := by simp at hb; omega
      cases a with
      | nil =>
        have hshapea : ([] : Bytes) ++ List.replicate (m + 1 - ([] : Bytes).length) 0 =
            0 :: List.replicate m 0 := by
          simp [List.replicate_succ]
        by_cases hy : y = 0
        · subst hy
          cases ys with
          | nil =>
            right
            constructor
            · rw [hshapea, hshapeb]
              simp
            · simp
          | cons c cs =>
            have hm : ([] : Bytes).length < m := by
              simp at hys ⊢
              omega
            rcases ih [] (c :: cs) hm hys (bytesLt_nil_left (by simp)) with h | ⟨h, _⟩
            · left
              rw [hshapea, hshapeb, bytesLt_cons_cons]
              simp at h ⊢
              exact h
            · right
              constructor
              · rw [hshapea, hshapeb]
                simp at h ⊢
                exact h
              · simp
        · left
          rw [hshapea, hshapeb, bytesLt_cons_cons]
          simp [Nat.pos_of_ne_zero hy]
      | cons x xs =>
        have hxs : xs.length < m := by simp at ha; omega
        have hshapea : (x :: xs) ++ List.replicate (m + 1 - (x :: xs).length) 0 =
            x :: (xs ++ List.replicate (m - xs.length) 0) := by
          simp [List.length_cons, Nat.succ_sub_succ]
        rw [bytesLt_cons_cons] at hab
        simp only [Bool.or_eq_true, Bool.and_eq_true, decide_eq_true_eq] at hab
        rcases hab with hxy | ⟨hxy, htail⟩
        · left
          rw [hshapea, hshapeb, bytesLt_cons_cons]
          simp [hxy]
        · subst hxy
          rcases ih xs ys hxs hys htail with h | ⟨h, hl⟩
          · left
            rw [hshapea, hshapeb, bytesLt_cons_cons]
            simp [h]
          · right
            constructor
            · rw [hshapea, hshapeb, h]
            · simpa using Nat.succ_lt_succ hl

theorem encode_mono_short {a b : Bytes} (ha : a.length < 8)
    (hab : bytesLt a b = true) :
    bytesLt (encode_bytes a) (encode_bytes b) = true := by
  have hea : encode_bytes a =
      (a ++ List.replicate (8 - a.length) 0) ++ [247 + a.length] := by
    rw [encode_short ha, List.append_assoc]
  have hlena : (a ++ List.replicate (8 - a.length) 0).length = 8 := by
    simp
    omega
  by_cases hb8 : 8 ≤ b.length
  · have heb : encode_bytes b = b.take 8 ++ 255 :: encode_bytes (b.drop 8) :=
      encode_ge8 hb8
    have hlenb : (b.take 8).length = 8 := by
      simp [List.length_take]
      omega
    rw [hea, heb, bytesLt_append_eq _ _ _ _ (by rw [hlena, hlenb])]
    rcases pad_lt_take 8 a b ha hb8 hab with h | h
    · simp [h]
    · rw [h]
      simp only [bytesLt_irrefl, decide_eq_true_eq, Bool.false_or, decide_True,
        Bool.true_and]
      rw [bytesLt_cons_cons]
      have : 247 + a.length < 255 := by omega
      simp [this]
  · have hb : b.length < 8 := by omega
    have heb : encode_bytes b =
        (b ++ List.replicate (8 - b.length) 0) ++ [247 + b.length] := by
      rw [encode_short hb, List.append_assoc]
    have hlenb : (b ++ List.replicate (8 - b.length) 0).length = 8 := by
      simp
      omega
    rw [hea, heb, bytesLt_append_eq _ _ _ _ (by rw [hlena, hlenb])]
    rcases pad_lt_pad 8 a b ha hb hab with h | ⟨h, hl⟩
    · simp [h]
    · rw [h]
      simp only [bytesLt_irrefl, decide_eq_true_eq, Bool.false_or, decide_True,
        Bool.true_and]
      rw [bytesLt_cons_cons]
      have : 247 + a.length < 247 + b.length := by omega
      simp [this]

theorem encode_mono_long_short {a b : Bytes} (ha : 8 ≤ a.length)
    (hb : b.length < 8) (hab : bytesLt a b = true) :
    bytesLt (encode_bytes a) (encode_bytes b) = true := by
  have hea : encode_bytes a = a.take 8 ++ 255 :: encode_bytes (a.drop 8) :=
    encode_ge8 ha
  have heb : encode_bytes b =
      (b ++ List.replicate (8 - b.length) 0) ++ [247 + b.length] := by
    rw [encode_short hb, List.append_assoc]
  have hlena : (a.take 8).length = 8 := by
    simp [List.length_take]
    omega
  have hlenb : (b ++ List.replicate (8 - b.length) 0).length = 8 := by
    simp
    omega
  rw [hea, heb, bytesLt_append_eq _ _ _ _ (by rw [hlena, hlenb])]
  simp [take_lt_pad 8 a b hb ha hab]

theorem encode_mono_aux : ∀ (n : Nat) (a b : Bytes), a.length ≤ n →
    bytesLt a b = true → bytesLt (encode_bytes a) (encode_bytes b) = true := by
  intro n
  induction n with
  | zero =>
    intro a b ha hab
    have : a.length < 8 := by omega
    exact encode_mono_short this hab
  | succ n ih =>
    intro a b ha hab
    by_cases ha8 : 8 ≤ a.length
    · by_cases hb8 : 8 ≤ b.length
      · have hea : encode_bytes a = a.take 8 ++ 255 :: encode_bytes (a.drop 8) :=
          encode_ge8 ha8
        have heb : encode_bytes b = b.take 8 ++ 255 :: encode_bytes (b.drop 8) :=
          encode_ge8 hb8
        have hlena : (a.take 8).length = 8 := by
          simp [List.length_take]
          omega
        have hlenb : (b.take 8).length = 8 := by
          simp [List.length_take]
          omega
        have hsplit := bytesLt_append_eq (a.take 8) (b.take 8)
          (a.drop 8) (b.drop 8) (by rw [hlena, hlenb])
        rw [List.take_append_drop, List.take_append_drop] at hsplit
        rw [hsplit] at hab
        rw [hea, heb, bytesLt_append_eq _ _ _ _ (by rw [hlena, hlenb])]
        simp only [Bool.or_eq_true, Bool.and_eq_true, decide_eq_true_eq] at hab ⊢
        rcases hab with h | ⟨h, htail⟩
        · exact Or.inl h
        · refine Or.inr ⟨h, ?_⟩
          have hdrop : (a.drop 8).length ≤ n := by
            simp [List.length_drop]
            omega
          have := ih (a.drop 8) (b.drop 8) hdrop htail
          rw [bytesLt_cons_cons]
          simp [this]
      · exact encode_mono_long_short ha8 (by omega) hab
    · exact encode_mono_short (by omega) hab

/-- Order preservation of the key encoding, one direction. -/
theorem encode_mono {a b : Bytes} (hab : bytesLt a b = true) :
    bytesLt (encode_bytes a) (encode_bytes b) = true :=
  encode_mono_aux a.length a b le_rfl hab

/-- Order preservation of the key encoding: comparing encoded keys agrees with
comparing raw keys. -/
theorem encode_lt_iff (a b : Bytes) :
    bytesLt (encode_bytes a) (encode_bytes b) = bytesLt a b := by
  cases hab : bytesLt a b with
  | true => exact encode_mono hab
  | false =>
    by_cases he : a = b
    · subst he
      exact bytesLt_irrefl _
    · have hba : bytesLt b a = true := bytesLt_of_not_lt_of_ne hab he
      have := encode_mono hba
      exact bytesLt_asymm this

/-! ### Data model

Regions, peers and roles mirror `kvproto::metapb` and `raft::StateRole` as
used by endpoint.rs.  Region boundary keys are stored in encoded form, with
the empty byte string denoting an unbounded side, exactly as in the source. -/

/-- Peer of a region (kvproto `metapb::Peer`, the fields endpoint.rs uses). -/
structure Peer where
  id : Nat
  peer_store_id : Nat
deriving DecidableEq, Repr

/-- Raft role of the local replica of a region (`raft::StateRole`, the only
distinction endpoint.rs makes is Leader vs everything else). -/
inductive StateRole where
  | Leader : StateRole
  | Follower : StateRole
deriving DecidableEq, Repr

/-- Region descriptor (kvproto `metapb::Region`, the fields endpoint.rs
uses): id, encoded boundary keys (empty bytes denote an unbounded side),
epoch, and the peer list. -/
structure Region where
  id : Nat
  start_key : Bytes
  end_key : Bytes
  epoch_conf_ver : Nat
  epoch_version : Nat
  peers : List Peer
deriving DecidableEq, Repr

/-- Region plus the local role, as yielded by the region-info provider
(`RegionInfo` of tikv::raftstore::coprocessor). -/
structure RegionInfo where
  region : Region
  role : StateRole
deriving DecidableEq, Repr

/-- One plan unit produced by the planner (`BackupRange` of endpoint.rs):
clipped encoded bounds (`none` = unbounded), the shard, and its local leader
peer. -/
structure BackupRange where
  start_key : Option Bytes
  end_key : Option Bytes
  region : Region
  leader : Peer
deriving DecidableEq, Repr

/-- Modelled from the spec: `find_peer` (tikv::raftstore::store::util,
outside this repository's sources) resolves "the local leader peer", i.e. the
peer of the region that lives on the given store. -/
def find_peer (region : Region) (store_id : Nat) : Option Peer :=
  region.peers.find? (fun p => p.peer_store_id = store_id)

/-- Translation of `key_from_region` (endpoint.rs): an empty region boundary
becomes the unbounded `none`, otherwise the encoded key is kept. -/
def key_from_region (region : Region) : Option Bytes × Option Bytes :=
  (if region.start_key = [] then none else some region.start_key,
   if region.end_key = [] then none else some region.end_key)

/-- Translation of the end-bound clipping inside `seek_backup_range`
(endpoint.rs lines 118-129): the `ekey` computation. -/
def clip_end (end_key : Option Bytes) (region : Region) : Option Bytes :=
  if region.end_key = [] then end_key
  else
    match end_key with
    | none => (key_from_region region).2
    | some e =>
      if bytesLt e region.end_key then end_key else (key_from_region region).2

/-- Translation of the start-bound clipping inside `seek_backup_range`
(endpoint.rs lines 130-139): the `skey` computation. -/
def clip_start (start_key : Option Bytes) (region : Region) : Option Bytes :=
  match start_key with
  | none => (key_from_region region).1
  | some s =>
    if bytesLt s region.start_key then (key_from_region region).1 else start_key

/-- Clipping of the user's encoded bounds against a region's encoded bounds
(endpoint.rs lines 117-139). -/
def clip_range (start_key end_key : Option Bytes) (region : Region) :
    Option Bytes × Option Bytes :=
  (clip_start start_key region, clip_end end_key region)

/-- Early-stop test of the planner loop (endpoint.rs lines 108-115): the
user's end bound is set and strictly below the region's start. -/
def breakTest (end_key : Option Bytes) (info : RegionInfo) : Bool :=
  match end_key with
  | some e => bytesLt e info.region.start_key
  | none => false

/-- Translation of the region-iteration callback of `seek_backup_range`
(endpoint.rs lines 105-149): walk the regions the provider yields, stop when
the user's end bound is strictly below a region's start, emit one
`BackupRange` per locally-led region, clipped to the user range.  The result
is `none` when `find_peer(...).unwrap()` panics (no local peer). -/
def seek_loop (store_id : Nat) (start_key end_key : Option Bytes) :
    List RegionInfo → Option (List BackupRange)
  | [] => some []
  | info :: rest =>
    if breakTest end_key info then
      some []
    else
      if info.role = StateRole.Leader then
        match find_peer info.region store_id with
        | none => none
        | some leader =>
          match seek_loop store_id start_key end_key rest with
          | none => none
          | some l =>
            some ({ start_key := clip_start start_key info.region,
                    end_key := clip_end end_key info.region,
                    region := info.region, leader := leader } :: l)
      else seek_loop store_id start_key end_key rest

/-- Modelled from the spec: the shard directory (`RegionInfoAccessor`,
outside this repository's sources) "yields in ascending shard.start order"
every shard whose range reaches the seek key, i.e. every shard whose encoded
range is at or after `from_key`; a shard is yielded iff its end is unbounded
or strictly above `from_key`. -/
def dir_seek (regions : List RegionInfo) (from_key : Bytes) : List RegionInfo :=
  regions.filter
    (fun info => decide (info.region.end_key = []) ||
      bytesLt from_key info.region.end_key)

/-- Translation of `Endpoint::seek_backup_range` (endpoint.rs lines 93-157):
seek the directory from the encoded start bound (empty when unbounded) and
run the region-iteration callback. -/
def seek_backup_range (store_id : Nat) (dir : Bytes → List RegionInfo)
    (start_key end_key : Option Bytes) : Option (List BackupRange) :=
  let start_key_ :=
    match start_key with
    | none => []
    | some k => k
  seek_loop store_id start_key end_key (dir start_key_)

/-- Construction of a backup file name (`backup_file_name`, endpoint.rs):
store id, region id and epoch version joined by underscores. -/
def backup_file_name (store_id : Nat) (region : Region) : String :=
  toString store_id ++ "_" ++ toString region.id ++ "_" ++
    toString region.epoch_version

/-- File metadata (`kvproto::backup::File`, the fields endpoint.rs sets plus
an opaque name from the writer). -/
structure File where
  name : String
  file_start_key : Bytes
  file_end_key : Bytes
  start_version : Nat
  end_version : Nat
deriving DecidableEq, Repr

/-- Response message (`kvproto::backup::BackupResponse`, the fields
endpoint.rs sets). -/
structure BackupResponse where
  start_key : Bytes
  end_key : Bytes
  files : List File
  error : Option Nat
deriving DecidableEq, Repr

/-- Modelled from the spec: the external collaborators of the worker path —
the engine (`Engine::snapshot`, which can fail, §6), and the post-snapshot
scan-write-save pipeline (`SnapshotStore`/`Scanner`/`BackupWriter`, §4.2),
all outside this repository's sources.  `snapshot` receives exactly the data
endpoint.rs puts into the read context (region id, epoch, leader peer);
`run_worker` receives exactly the data the spawned closure captures
(snapshot, backup timestamp, clipped bounds, file name, storage sink), and
returns `none` for a worker panic (`entry_scanner(...).unwrap()`), `some
(Except.error e)` when a fallible step fails and the unit-scoped error is
sent, or `some (Except.ok (files, stat))` on success. -/
structure Collab where
  snapshot : Nat → Nat × Nat → Peer → Except Nat Nat
  run_worker : Nat → Nat → Option Bytes → Option Bytes → String → Nat →
    Option (Except Nat (List File × Nat))

/-- Translation of `Endpoint::dispatch_backup_range` (endpoint.rs lines
159-222): build the read context, acquire the snapshot
(`engine.snapshot(&ctx).unwrap()` — an engine error panics the dispatcher,
modelled by the outer `none`), then run the worker closure; `some none`
means the worker panicked and sent nothing, `some (some msg)` is the message
sent on the result channel. -/
def dispatch_backup_range (c : Collab) (store_id : Nat) (brange : BackupRange)
    (start_ts end_ts : Nat) (storage : Nat) :
    Option (Option (BackupRange × Except Nat (List File × Nat))) :=
  let _ := start_ts
  let backup_ts := end_ts
  match c.snapshot brange.region.id
      (brange.region.epoch_conf_ver, brange.region.epoch_version)
      brange.leader with
  | .error _ => none
  | .ok snap =>
    some (
      match c.run_worker snap backup_ts brange.start_key brange.end_key
          (backup_file_name store_id brange.region) storage with
      | none => none
      | some res => some (brange, res))

/-- Dispatch loop of `handle_backup_task` (endpoint.rs lines 240-243): one
`dispatch_backup_range` per plan unit, in plan order; a dispatcher panic
(engine snapshot failure) aborts the loop. -/
def dispatch_all (c : Collab) (store_id end_ts storage : Nat) :
    List BackupRange → Option (List (Option (BackupRange × Except Nat (List File × Nat))))
  | [] => some []
  | br :: rest =>
    match dispatch_backup_range c store_id br end_ts end_ts storage with
    | none => none
    | some m =>
      match dispatch_all c store_id end_ts storage rest with
      | none => none
      | some l => some (m :: l)

/-- Conversion of a raw user bound into the encoded bound used by the planner
(endpoint.rs lines 226-235): empty raw key becomes the unbounded `none`. -/
def key_of_raw (raw : Bytes) : Option Bytes :=
  if raw = [] then none else some (encode_bytes raw)

/-- Conversion of an encoded bound back to raw bytes for a response
(endpoint.rs lines 250-255, `map_or_else(|| vec![], |k| k.into_raw().unwrap())`);
the outer `none` models the `unwrap` panic on an undecodable key. -/
def raw_of_key : Option Bytes → Option Bytes
  | none => some []
  | some k => decode_bytes k

/-- Collection loop of `handle_backup_task` (endpoint.rs lines 249-287): for
each unit result build a `BackupResponse` carrying the unit's raw bounds; on
`Ok` stamp every file with the raw bounds and the task's timestamps, on `Err`
set the error; send each response (`unbounded_send(...).unwrap()` panics when
the response sink is disconnected, modelled by `none`). -/
def collect_loop (resp_connected : Bool) (start_ts end_ts : Nat) :
    List (BackupRange × Except Nat (List File × Nat)) →
      Option (List BackupResponse)
  | [] => some []
  | (brange, res) :: rest =>
    match raw_of_key brange.start_key, raw_of_key brange.end_key with
    | some start_key, some end_key =>
      let response : BackupResponse :=
        match res with
        | .ok (files, _stat) =>
          { start_key := start_key, end_key := end_key,
            files := files.map (fun f =>
              { f with file_start_key := start_key, file_end_key := end_key,
                       start_version := start_ts, end_version := end_ts }),
            error := none }
        | .error e =>
          { start_key := start_key, end_key := end_key, files := [],
            error := some e }
      if resp_connected then
        match collect_loop resp_connected start_ts end_ts rest with
        | none => none
        | some l => some (response :: l)
      else none
    | _, _ => none

/-- Backup task (`Task` of endpoint.rs): raw user bounds, timestamps, the
storage sink (an opaque handle), and whether the response sink is still
connected (an `UnboundedSender` send fails exactly when the receiver was
dropped). -/
structure Task where
  start_key : Bytes
  end_key : Bytes
  start_ts : Nat
  end_ts : Nat
  storage : Nat
  resp_connected : Bool
deriving DecidableEq, Repr

/-- Translation of `Endpoint::handle_backup_task` (endpoint.rs lines
224-292): encode the raw user bounds, plan, dispatch every unit (passing
`task.end_ts` for both timestamps, line 242), collect the unit results into
responses, and finish with the `None` sentinel.  The result is the sequence
of messages sent on the response channel, or `none` when the task panicked. -/
def handle_backup_task (c : Collab) (store_id : Nat)
    (dir : Bytes → List RegionInfo) (task : Task) :
    Option (List (Option BackupResponse)) :=
  let start_key := key_of_raw task.start_key
  let end_key := key_of_raw task.end_key
  match seek_backup_range store_id dir start_key end_key with
  | none => none
  | some branges =>
    match dispatch_all c store_id task.end_ts task.storage branges with
    | none => none
    | some sent =>
      match collect_loop task.resp_connected task.start_ts task.end_ts
          (sent.filterMap id) with
      | none => none
      | some resps =>
        if task.resp_connected then some (resps.map some ++ [none]) else none

/-- Translation of `Runnable::run` (endpoint.rs lines 295-306): a task with
`start_ts == end_ts` is handled; otherwise the task is refused and only the
terminal sentinel is sent (`unbounded_send(None).unwrap()`). -/
def run (c : Collab) (store_id : Nat) (dir : Bytes → List RegionInfo)
    (task : Task) : Option (List (Option BackupResponse)) :=
  if task.start_ts = task.end_ts then
    handle_backup_task c store_id dir task
  else
    if task.resp_connected then some [none] else none

/-! ### Raw-level interval vocabulary

These definitions state the spec's clipping formula `[max(S, X.start),
min(E, X.end))` over raw keys, with the empty byte string denoting the
unbounded side; the claims compare the code's behaviour against them. -/

/-- Maximum of two lower bounds over raw keys; the empty key is minus
infinity. -/
def lowerMax (s r : Bytes) : Bytes :=
  if s = [] then r else if r = [] then s else if bytesLt s r then r else s

/-- Minimum of two upper bounds over raw keys; the empty key is plus
infinity. -/
def upperMin (e r : Bytes) : Bytes :=
  if e = [] then r else if r = [] then e else if bytesLt e r then e else r

/-- Nonemptiness of the half-open raw interval `[a, b)` where an empty `a` is
minus infinity and an empty `b` is plus infinity. -/
def lowLtUp (a b : Bytes) : Bool :=
  decide (a = []) || decide (b = []) || bytesLt a b

/-- Nonempty intersection of the half-open raw intervals `[s1, e1)` and
`[s2, e2)` (empty start = minus infinity, empty end = plus infinity). -/
def rawIntersects (s1 e1 s2 e2 : Bytes) : Bool :=
  lowLtUp s1 e2 && lowLtUp s2 e1

/-- Strict order on lower bounds over raw keys ([] = minus infinity). -/
def lowerLtB (s1 s2 : Bytes) : Bool :=
  if s1 = [] then decide (s2 ≠ []) else decide (s2 ≠ []) && bytesLt s1 s2

/-- Shard description over raw keys; the directory stores its boundary keys
in encoded form (`toRegion`). -/
structure RawShard where
  id : Nat
  epoch_conf_ver : Nat
  epoch_version : Nat
  start_raw : Bytes
  end_raw : Bytes
  peers : List Peer
  role : StateRole
deriving DecidableEq, Repr

/-- Encoded form of a raw boundary key: empty stays empty (unbounded),
anything else is encoded — exactly how the directory stores shard bounds
(see the MockRegionInfoProvider in endpoint.rs's tests). -/
def enc_bound (b : Bytes) : Bytes :=
  if b = [] then [] else encode_bytes b

/-- Region descriptor of a raw shard, boundary keys encoded. -/
def toRegion (r : RawShard) : Region :=
  { id := r.id, start_key := enc_bound r.start_raw,
    end_key := enc_bound r.end_raw, epoch_conf_ver := r.epoch_conf_ver,
    epoch_version := r.epoch_version, peers := r.peers }

/-- Region info (region plus local role) of a raw shard. -/
def toRegionInfo (r : RawShard) : RegionInfo :=
  { region := toRegion r, role := r.role }

theorem enc_bound_eq_nil {b : Bytes} : enc_bound b = [] ↔ b = [] := by
  unfold enc_bound
  by_cases h : b = []
  · simp [h]
  · simp [h, encode_ne_nil b]

theorem key_of_raw_injective {a b : Bytes} (h : key_of_raw a = key_of_raw b) :
    a = b := by
  unfold key_of_raw at h
  by_cases ha : a = [] <;> by_cases hb : b = [] <;> simp [ha, hb] at h
  · rw [ha, hb]
  · exact encode_injective h

theorem key_from_region_start (r : RawShard) :
    (key_from_region (toRegion r)).1 = key_of_raw r.start_raw := by
  unfold key_from_region toRegion key_of_raw enc_bound
  by_cases h : r.start_raw = [] <;> simp [h, encode_ne_nil]

theorem key_from_region_end (r : RawShard) :
    (key_from_region (toRegion r)).2 = key_of_raw r.end_raw := by
  unfold key_from_region toRegion key_of_raw enc_bound
  by_cases h : r.end_raw = [] <;> simp [h, encode_ne_nil]

theorem lowerMax_nil_left (r : Bytes) : lowerMax [] r = r := by
  simp [lowerMax]

theorem lowerMax_nil_right (s : Bytes) : lowerMax s [] = s := by
  unfold lowerMax
  by_cases hs : s = [] <;> simp [hs]

theorem upperMin_nil_left (r : Bytes) : upperMin [] r = r := by
  simp [upperMin]

theorem upperMin_nil_right (e : Bytes) : upperMin e [] = e := by
  unfold upperMin
  by_cases he : e = [] <;> simp [he]

theorem toRegion_start (r : RawShard) :
    (toRegion r).start_key = enc_bound r.start_raw := rfl

theorem toRegion_end (r : RawShard) :
    (toRegion r).end_key = enc_bound r.end_raw := rfl

/-- Characterization of the code's end clipping over raw keys: it computes
the spec's `min(E, X.end)`, encoded. -/
theorem clip_end_raw (E : Bytes) (r : RawShard) :
    clip_end (key_of_raw E) (toRegion r) = key_of_raw (upperMin E r.end_raw) := by
  by_cases hXe : r.end_raw = []
  · have h1 : (toRegion r).end_key = [] := by
      rw [toRegion_end]
      exact enc_bound_eq_nil.mpr hXe
    rw [clip_end.eq_def, if_pos h1, hXe, upperMin_nil_right]
  · have h1 : (toRegion r).end_key = encode_bytes r.end_raw := by
      rw [toRegion_end]
      unfold enc_bound
      rw [if_neg hXe]
    have h1' : (toRegion r).end_key ≠ [] := by
      rw [h1]
      exact encode_ne_nil _
    by_cases hE : E = []
    · have h2 : key_of_raw E = none := by
        unfold key_of_raw
        rw [if_pos hE]
      rw [clip_end.eq_def, if_neg h1', h2, hE, upperMin_nil_left, key_from_region_end]
    · have h2 : key_of_raw E = some (encode_bytes E) := by
        unfold key_of_raw
        rw [if_neg hE]
      rw [clip_end.eq_def, if_neg h1', h2]
      simp only [h1, encode_lt_iff, key_from_region_end]
      unfold upperMin
      rw [if_neg hE, if_neg hXe]
      by_cases h4 : bytesLt E r.end_raw = true
      · rw [if_pos h4, if_pos h4, h2]
      · rw [if_neg h4, if_neg h4]

/-- Characterization of the code's start clipping over raw keys: it computes
the spec's `max(S, X.start)`, encoded. -/
theorem clip_start_raw (S : Bytes) (r : RawShard) :
    clip_start (key_of_raw S) (toRegion r) = key_of_raw (lowerMax S r.start_raw) := by
  by_cases hS : S = []
  · have h2 : key_of_raw S = none := by
      unfold key_of_raw
      rw [if_pos hS]
    rw [clip_start.eq_def, h2, hS, lowerMax_nil_left, key_from_region_start]
  · have h2 : key_of_raw S = some (encode_bytes S) := by
      unfold key_of_raw
      rw [if_neg hS]
    rw [clip_start.eq_def, h2]
    simp only []
    by_cases hXs : r.start_raw = []
    · have h3 : (toRegion r).start_key = [] := by
        rw [toRegion_start]
        exact enc_bound_eq_nil.mpr hXs
      rw [h3, bytesLt_nil_right, hXs, lowerMax_nil_right, if_neg (by simp), h2]
    · have h3 : (toRegion r).start_key = encode_bytes r.start_raw := by
        rw [toRegion_start]
        unfold enc_bound
        rw [if_neg hXs]
      rw [h3, encode_lt_iff, key_from_region_start]
      unfold lowerMax
      rw [if_neg hS, if_neg hXs]
      by_cases h4 : bytesLt S r.start_raw = true
      · rw [if_pos h4, if_pos h4]
      · rw [if_neg h4, if_neg h4, h2]

/-- Characterization of the code's clipping over raw keys: on a region whose
boundary keys encode the raw shard bounds, `clip_range` computes exactly the
spec's `[max(S, X.start), min(E, X.end))`, encoded. -/
theorem clip_range_raw (S E : Bytes) (r : RawShard) :
    clip_range (key_of_raw S) (key_of_raw E) (toRegion r) =
      (key_of_raw (lowerMax S r.start_raw), key_of_raw (upperMin E r.end_raw)) := by
  rw [clip_range, clip_start_raw, clip_end_raw]

/-! ### Planner lemmas -/

/-- Ordering of region infos by encoded start key, the order in which the
directory yields them. -/
def infoLt (a b : RegionInfo) : Prop :=
  bytesLt a.region.start_key b.region.start_key = true

theorem infoLt_region_ne {a b : RegionInfo} (h : infoLt a b) :
    a.region ≠ b.region := by
  intro he
  unfold infoLt at h
  rw [he, bytesLt_irrefl] at h
  exact absurd h (by simp)

theorem seek_loop_nil (sid : Nat) (sk ek : Option Bytes) :
    seek_loop sid sk ek [] = some [] := rfl

theorem seek_loop_cons (sid : Nat) (sk ek : Option Bytes) (info : RegionInfo)
    (rest : List RegionInfo) :
    seek_loop sid sk ek (info :: rest) =
      if breakTest ek info then some []
      else
        if info.role = StateRole.Leader then
          match find_peer info.region sid with
          | none => none
          | some leader =>
            match seek_loop sid sk ek rest with
            | none => none
            | some l =>
              some ({ start_key := clip_start sk info.region,
                      end_key := clip_end ek info.region,
                      region := info.region, leader := leader } :: l)
        else seek_loop sid sk ek rest := rfl

/-- Monotonicity of the break test along the directory order: if the loop
does not stop at a later region, it does not stop at an earlier one. -/
theorem breakTest_earlier {ek : Option Bytes} {i0 X : RegionInfo}
    (hnb : breakTest ek X = false) (h01 : infoLt i0 X) :
    breakTest ek i0 = false := by
  cases ek with
  | none => rfl
  | some e =>
    have hnb' : bytesLt e X.region.start_key = false := hnb
    show bytesLt e i0.region.start_key = false
    cases hv : bytesLt e i0.region.start_key with
    | false => rfl
    | true =>
      have := bytesLt_trans hv h01
      rw [hnb'] at this
      exact absurd this (by simp)

/-- Totality of the planner loop: as long as every locally-led region has a
resolvable local peer, the loop does not panic. -/
theorem seek_loop_total (sid : Nat) (sk ek : Option Bytes) :
    ∀ (infos : List RegionInfo),
    (∀ i ∈ infos, i.role = StateRole.Leader → (find_peer i.region sid).isSome) →
    ∃ res, seek_loop sid sk ek infos = some res := by
  intro infos
  induction infos with
  | nil => exact fun _ => ⟨[], rfl⟩
  | cons info rest ih =>
    intro hpeer
    rw [seek_loop_cons]
    by_cases hbrk : breakTest ek info = true
    · rw [if_pos hbrk]
      exact ⟨[], rfl⟩
    · rw [if_neg hbrk]
      by_cases hlead : info.role = StateRole.Leader
      · rw [if_pos hlead]
        have hp := hpeer info (by simp) hlead
        obtain ⟨p, hp⟩ := Option.isSome_iff_exists.mp hp
        rw [hp]
        obtain ⟨l, hl⟩ := ih (fun i hi => hpeer i (by simp [hi]))
        rw [hl]
        exact ⟨_, rfl⟩
      · rw [if_neg hlead]
        exact ih (fun i hi => hpeer i (by simp [hi]))

/-- Soundness of the planner loop: every emitted `BackupRange` comes from a
locally-led region of the iterated list, with the code's clipped bounds and
its resolved peer. -/
theorem seek_loop_mem (sid : Nat) (sk ek : Option Bytes) :
    ∀ (infos : List RegionInfo) (res : List BackupRange),
    seek_loop sid sk ek infos = some res →
    ∀ br ∈ res, ∃ i, i ∈ infos ∧ i.role = StateRole.Leader ∧
      br.region = i.region ∧
      br.start_key = clip_start sk i.region ∧
      br.end_key = clip_end ek i.region ∧
      find_peer i.region sid = some br.leader := by
  intro infos
  induction infos with
  | nil =>
    intro res h br hbr
    rw [seek_loop_nil] at h
    cases h
    simp at hbr
  | cons info rest ih =>
    intro res h br hbr
    rw [seek_loop_cons] at h
    by_cases hbrk : breakTest ek info = true
    · rw [if_pos hbrk] at h
      cases h
      simp at hbr
    · rw [if_neg hbrk] at h
      by_cases hlead : info.role = StateRole.Leader
      · rw [if_pos hlead] at h
        cases hp : find_peer info.region sid with
        | none => rw [hp] at h; cases h
        | some p =>
          rw [hp] at h
          cases hrec : seek_loop sid sk ek rest with
          | none => rw [hrec] at h; cases h
          | some l =>
            rw [hrec] at h
            cases h
            rcases List.mem_cons.mp hbr with hbr0 | hbrl
            · subst hbr0
              exact ⟨info, by simp, hlead, rfl, rfl, rfl, hp⟩
            · obtain ⟨i, hi, h1, h2, h3, h4, h5⟩ := ih l hrec br hbrl
              exact ⟨i, by simp [hi], h1, h2, h3, h4, h5⟩
      · rw [if_neg hlead] at h
        obtain ⟨i, hi, h1, h2, h3, h4, h5⟩ := ih res h br hbr
        exact ⟨i, by simp [hi], h1, h2, h3, h4, h5⟩

/-- Core emission lemma of the planner: when the loop reaches a locally-led
region `X` (the sorted prefix before it cannot trigger the early break if `X`
itself does not), it emits exactly one `BackupRange` for `X`, carrying the
code's clipped bounds and `X`'s resolved local peer. -/
theorem seek_loop_core (sid : Nat) (sk ek : Option Bytes) :
    ∀ (l1 : List RegionInfo) (X : RegionInfo) (l2 : List RegionInfo),
    (l1 ++ X :: l2).Pairwise infoLt →
    (∀ i ∈ l1 ++ X :: l2, i.role = StateRole.Leader →
      (find_peer i.region sid).isSome) →
    X.role = StateRole.Leader →
    breakTest ek X = false →
    ∃ res p, seek_loop sid sk ek (l1 ++ X :: l2) = some res ∧
      find_peer X.region sid = some p ∧
      res.countP (fun br => decide (br.region = X.region)) = 1 ∧
      (∀ br ∈ res, br.region = X.region →
        br = { start_key := clip_start sk X.region,
               end_key := clip_end ek X.region,
               region := X.region, leader := p }) := by
  intro l1
  induction l1 with
  | nil =>
    intro X l2 hsort hpeer hXlead hnb
    simp only [List.nil_append] at hsort hpeer ⊢
    have hXp := hpeer X (by simp) hXlead
    obtain ⟨p, hp⟩ := Option.isSome_iff_exists.mp hXp
    obtain ⟨l2res, h2⟩ := seek_loop_total sid sk ek l2
      (fun i hi => hpeer i (by simp [hi]))
    refine ⟨{ start_key := clip_start sk X.region,
              end_key := clip_end ek X.region,
              region := X.region, leader := p } :: l2res, p, ?_, hp, ?_, ?_⟩
    · rw [seek_loop_cons, hnb]
      simp only [Bool.false_eq_true, if_false, if_pos hXlead, hp, h2]
    · rw [List.countP_cons]
      have hl2zero : l2res.countP (fun br => decide (br.region = X.region)) = 0 := by
        rw [List.countP_eq_zero]
        intro br hbr
        obtain ⟨i, hi, _, h2', _, _, _⟩ := seek_loop_mem sid sk ek l2 l2res h2 br hbr
        have hXi : infoLt X i := (List.pairwise_cons.mp hsort).1 i hi
        simp only [decide_eq_true_eq]
        intro he
        exact infoLt_region_ne hXi (by rw [← h2', he])
      simp [hl2zero]
    · intro br hbr hreg
      rcases List.mem_cons.mp hbr with hbr0 | hbrl
      · exact hbr0
      · obtain ⟨i, hi, _, h2', _, _, _⟩ := seek_loop_mem sid sk ek l2 l2res h2 br hbrl
        have hXi : infoLt X i := (List.pairwise_cons.mp hsort).1 i hi
        exact absurd (by rw [← h2', hreg] : X.region = i.region)
          (infoLt_region_ne hXi)
  | cons i0 l1' ih =>
    intro X l2 hsort hpeer hXlead hnb
    have hsort' : (l1' ++ X :: l2).Pairwise infoLt :=
      (List.pairwise_cons.mp hsort).2
    have hpeer' : ∀ i ∈ l1' ++ X :: l2, i.role = StateRole.Leader →
        (find_peer i.region sid).isSome :=
      fun i hi => hpeer i (by simp [hi])
    obtain ⟨res', p, hrec, hp, hcount, hchar⟩ := ih X l2 hsort' hpeer' hXlead hnb
    have hi0X : infoLt i0 X :=
      (List.pairwise_cons.mp hsort).1 X (by simp)
    have hbrk : breakTest ek i0 = false := breakTest_earlier hnb hi0X
    rw [List.cons_append, seek_loop_cons, hbrk]
    simp only [Bool.false_eq_true, if_false]
    by_cases hlead : i0.role = StateRole.Leader
    · rw [if_pos hlead]
      have hi0p := hpeer i0 (by simp) hlead
      obtain ⟨p0, hp0⟩ := Option.isSome_iff_exists.mp hi0p
      rw [hp0, hrec]
      refine ⟨_, p, rfl, hp, ?_, ?_⟩
      · rw [List.countP_cons]
        have hne : i0.region ≠ X.region := infoLt_region_ne hi0X
        simp [hne, hcount]
      · intro br hbr hreg
        rcases List.mem_cons.mp hbr with hbr0 | hbrl
        · rw [hbr0] at hreg
          exact absurd hreg (infoLt_region_ne hi0X)
        · exact hchar br hbrl hreg
    · rw [if_neg hlead]
      exact ⟨res', p, hrec, hp, hcount, hchar⟩

/-! ### Dispatcher and collector lemmas -/

theorem raw_of_key_key_of_raw (x : Bytes) :
    raw_of_key (key_of_raw x) = some x := by
  unfold key_of_raw
  by_cases hx : x = []
  · rw [if_pos hx, hx]
    rfl
  · rw [if_neg hx]
    exact decode_encode x

/-- Per-unit outcome of the worker pipeline, as a function of the data the
spawned closure captures (used to characterize `dispatch_all` when the
collaborators are total). -/
def unit_outcome (snapF : Nat → Nat × Nat → Peer → Nat)
    (wF : Nat → Nat → Option Bytes → Option Bytes → String → Nat →
      Except Nat (List File × Nat))
    (sid ts st : Nat) (br : BackupRange) : Except Nat (List File × Nat) :=
  wF (snapF br.region.id (br.region.epoch_conf_ver, br.region.epoch_version)
      br.leader)
    ts br.start_key br.end_key (backup_file_name sid br.region) st

/-- Characterization of the dispatch loop when the engine always yields a
snapshot and no worker panics: every unit's message reaches the result
channel, in plan order. -/
theorem dispatch_all_eq (c : Collab)
    (snapF : Nat → Nat × Nat → Peer → Nat)
    (wF : Nat → Nat → Option Bytes → Option Bytes → String → Nat →
      Except Nat (List File × Nat))
    (hs : ∀ n ep p, c.snapshot n ep p = .ok (snapF n ep p))
    (hw : ∀ s ts a b nm st, c.run_worker s ts a b nm st = some (wF s ts a b nm st))
    (sid ts st : Nat) :
    ∀ (branges : List BackupRange),
    dispatch_all c sid ts st branges =
      some ((branges.map
        (fun br => (br, unit_outcome snapF wF sid ts st br))).map some) := by
  intro branges
  induction branges with
  | nil => rfl
  | cons br rest ih =>
    rw [dispatch_all, dispatch_backup_range]
    simp only [hs, hw, ih]
    rfl

theorem collect_loop_nil (conn : Bool) (ts1 ts2 : Nat) :
    collect_loop conn ts1 ts2 [] = some [] := rfl

theorem collect_loop_cons (conn : Bool) (ts1 ts2 : Nat) (brange : BackupRange)
    (res : Except Nat (List File × Nat))
    (rest : List (BackupRange × Except Nat (List File × Nat))) :
    collect_loop conn ts1 ts2 ((brange, res) :: rest) =
      match raw_of_key brange.start_key, raw_of_key brange.end_key with
      | some start_key, some end_key =>
        let response : BackupResponse :=
          match res with
          | .ok (files, _stat) =>
            { start_key := start_key, end_key := end_key,
              files := files.map (fun f =>
                { f with file_start_key := start_key, file_end_key := end_key,
                         start_version := ts1, end_version := ts2 }),
              error := none }
          | .error e =>
            { start_key := start_key, end_key := end_key, files := [],
              error := some e }
        if conn then
          match collect_loop conn ts1 ts2 rest with
          | none => none
          | some l => some (response :: l)
        else none
      | _, _ => none := rfl

/-- Characterization of the collection loop on a connected response sink with
decodable unit bounds: each unit result becomes one response carrying the
unit's raw bounds and, for a failed unit, its unit-scoped error. -/
theorem collect_loop_total (ts1 ts2 : Nat) :
    ∀ (results : List (BackupRange × Except Nat (List File × Nat))),
    (∀ pr ∈ results, (raw_of_key (Prod.fst pr).start_key).isSome ∧
      (raw_of_key (Prod.fst pr).end_key).isSome) →
    ∃ resps, collect_loop true ts1 ts2 results = some resps ∧
      List.Forall₂ (fun (pr : BackupRange × Except Nat (List File × Nat))
          (r : BackupResponse) =>
        raw_of_key (Prod.fst pr).start_key = some r.start_key ∧
        raw_of_key (Prod.fst pr).end_key = some r.end_key ∧
        r.error = (match Prod.snd pr with
          | .ok _ => none
          | .error e => some e)) results resps := by
  intro results
  induction results with
  | nil => exact fun _ => ⟨[], rfl, List.Forall₂.nil⟩
  | cons pr rest ih =>
    intro hdec
    obtain ⟨brange, res⟩ := pr
    obtain ⟨h1, h2⟩ := hdec (brange, res) (by simp)
    obtain ⟨sraw, hsr⟩ := Option.isSome_iff_exists.mp h1
    obtain ⟨eraw, her⟩ := Option.isSome_iff_exists.mp h2
    obtain ⟨l, hl, hrel⟩ := ih (fun q hq => hdec q (by simp [hq]))
    cases res with
    | ok pair =>
      obtain ⟨files, stat⟩ := pair
      refine ⟨{ start_key := sraw, end_key := eraw,
                files := files.map (fun f =>
                  { f with file_start_key := sraw, file_end_key := eraw,
                           start_version := ts1, end_version := ts2 }),
                error := none } :: l, ?_, List.Forall₂.cons ⟨hsr, her, rfl⟩ hrel⟩
      rw [collect_loop_cons, hsr, her, hl]
      rfl
    | error e =>
      refine ⟨{ start_key := sraw, end_key := eraw, files := [],
                error := some e } :: l, ?_, List.Forall₂.cons ⟨hsr, her, rfl⟩ hrel⟩
      rw [collect_loop_cons, hsr, her, hl]
      rfl

/-! ### Raw interval order lemmas -/

/-- A raw key `x`, read as a lower bound ([] = minus infinity), is at or
below the concrete key `a`. -/
def lbLe (x a : Bytes) : Prop :=
  x = [] ∨ (a ≠ [] ∧ bytesLt a x = false)

/-- The concrete key `b` is at or below the raw key `y` read as an upper
bound ([] = plus infinity). -/
def ubLe (b y : Bytes) : Prop :=
  y = [] ∨ (b ≠ [] ∧ bytesLt y b = false)

theorem lowerMax_cases (s r : Bytes) : lowerMax s r = s ∨ lowerMax s r = r := by
  unfold lowerMax
  by_cases hs : s = []
  · simp [hs]
  · by_cases hr : r = []
    · simp [hs, hr]
    · by_cases hlt : bytesLt s r = true <;> simp [hs, hr, hlt]

theorem upperMin_cases (e r : Bytes) : upperMin e r = e ∨ upperMin e r = r := by
  unfold upperMin
  by_cases he : e = []
  · simp [he]
  · by_cases hr : r = []
    · simp [he, hr]
    · by_cases hlt : bytesLt e r = true <;> simp [he, hr, hlt]

theorem lowerMax_lbLe (s r : Bytes) : lbLe r (lowerMax s r) := by
  unfold lowerMax lbLe
  by_cases hr : r = []
  · exact Or.inl hr
  · by_cases hs : s = []
    · right
      simp [hs, hr, bytesLt_irrefl]
    · by_cases hlt : bytesLt s r = true
      · right
        simp [hs, hr, hlt, bytesLt_irrefl]
      · right
        simp only [if_neg hs, if_neg hr, hlt, if_false]
        refine ⟨hs, ?_⟩
        simp at hlt
        exact hlt

theorem upperMin_ubLe (e r : Bytes) : ubLe (upperMin e r) r := by
  unfold upperMin ubLe
  by_cases hr : r = []
  · exact Or.inl hr
  · by_cases he : e = []
    · right
      simp [he, hr, bytesLt_irrefl]
    · by_cases hlt : bytesLt e r = true
      · right
        simp only [if_neg he, if_neg hr, hlt, if_true]
        exact ⟨he, bytesLt_asymm hlt⟩
      · right
        simp [he, hr, hlt, bytesLt_irrefl]

/-- From `x ≤ a` and `a < b` conclude `x < b`. -/
theorem bytesNotLt_lt_trans {x a b : Bytes} (hax : bytesLt a x = false)
    (hab : bytesLt a b = true) : bytesLt x b = true := by
  by_cases hxa : x = a
  · rw [hxa]
    exact hab
  · exact bytesLt_trans (bytesLt_of_not_lt_of_ne hax (fun he => hxa he.symm)) hab

/-- From `x < b` and `b ≤ y` conclude `x < y`. -/
theorem lt_bytesNotLt_trans {x b y : Bytes} (hxb : bytesLt x b = true)
    (hyb : bytesLt y b = false) : bytesLt x y = true := by
  by_cases hby : b = y
  · rw [← hby]
    exact hxb
  · exact bytesLt_trans hxb (bytesLt_of_not_lt_of_ne hyb (fun he => hby he.symm))

/-- Squeeze lemma: a nonempty concrete interval `[a, b)` inside the raw
interval `[x, y)` makes `[x, y)` nonempty. -/
theorem lowLtUp_of_squeeze {x a b y : Bytes} (hxa : lbLe x a) (hby : ubLe b y)
    (hab : lowLtUp a b = true) : lowLtUp x y = true := by
  rcases hxa with hx | ⟨ha, hax⟩
  · unfold lowLtUp
    rw [hx]
    simp
  · rcases hby with hy | ⟨hb, hyb⟩
    · unfold lowLtUp
      rw [hy]
      simp
    · have hab' : bytesLt a b = true := by
        unfold lowLtUp at hab
        simp only [Bool.or_eq_true, decide_eq_true_eq] at hab
        rcases hab with (h | h) | h
        · exact absurd h ha
        · exact absurd h hb
        · exact h
      have hxy : bytesLt x y = true :=
        lt_bytesNotLt_trans (bytesNotLt_lt_trans hax hab') hyb
      unfold lowLtUp
      rw [hxy]
      simp

theorem rawIntersects_symm (s1 e1 s2 e2 : Bytes) :
    rawIntersects s1 e1 s2 e2 = rawIntersects s2 e2 s1 e1 := by
  unfold rawIntersects
  rw [Bool.and_comm]

/-- Two shards whose clipped ranges both contain the same nonempty interval
intersect each other. -/
theorem squeeze_intersect {Xs Xe Ys Ye a b : Bytes}
    (h1 : lbLe Xs a) (h2 : ubLe b Xe) (h3 : lbLe Ys a) (h4 : ubLe b Ye)
    (hab : lowLtUp a b = true) : rawIntersects Xs Xe Ys Ye = true := by
  unfold rawIntersects
  rw [lowLtUp_of_squeeze h1 h4 hab, lowLtUp_of_squeeze h3 h2 hab]
  rfl

/-- Nonemptiness of the clipped range of an intersecting shard: when the user
range, the shard and their pairwise bounds are all nonempty-compatible, the
clipped interval `[max(S, Xs), min(E, Xe))` is nonempty. -/
theorem clip_nonempty {S E Xs Xe : Bytes} (hSE : lowLtUp S E = true)
    (hX : lowLtUp Xs Xe = true) (hSXe : lowLtUp S Xe = true)
    (hXsE : lowLtUp Xs E = true) :
    lowLtUp (lowerMax S Xs) (upperMin E Xe) = true := by
  rcases lowerMax_cases S Xs with hl | hl <;>
    rcases upperMin_cases E Xe with hu | hu <;> rw [hl, hu] <;> assumption

/-! ### Directory and pipeline glue -/

theorem filterMap_id_map_some {α : Type} (l : List α) :
    (l.map some).filterMap id = l := by
  induction l with
  | nil => rfl
  | cons a t ih => simp [List.filterMap_cons, ih]

theorem seek_backup_range_raw (sid : Nat) (dir : Bytes → List RegionInfo)
    (S E : Bytes) :
    seek_backup_range sid dir (key_of_raw S) (key_of_raw E) =
      seek_loop sid (key_of_raw S) (key_of_raw E) (dir (enc_bound S)) := by
  unfold seek_backup_range key_of_raw enc_bound
  by_cases hS : S = [] <;> simp [hS]

/-- The directory order on raw shards transfers to the encoded order used by
the planner. -/
theorem infoLt_of_lowerLtB {a b : RawShard}
    (h : lowerLtB a.start_raw b.start_raw = true) :
    infoLt (toRegionInfo a) (toRegionInfo b) := by
  show bytesLt (enc_bound a.start_raw) (enc_bound b.start_raw) = true
  unfold lowerLtB at h
  by_cases ha : a.start_raw = []
  · rw [if_pos ha] at h
    simp only [decide_eq_true_eq] at h
    have hb : enc_bound b.start_raw ≠ [] := fun hc => h (enc_bound_eq_nil.mp hc)
    rw [ha]
    show bytesLt (enc_bound []) _ = true
    unfold enc_bound
    rw [if_pos rfl]
    exact bytesLt_nil_left hb
  · rw [if_neg ha] at h
    simp only [Bool.and_eq_true, decide_eq_true_eq] at h
    obtain ⟨hb, hlt⟩ := h
    unfold enc_bound
    rw [if_neg ha, if_neg hb, encode_lt_iff]
    exact hlt

/-- A shard whose range reaches the user's start bound passes the directory's
seek filter. -/
theorem dir_pred_of_lowLtUp {S Xe : Bytes} (h : lowLtUp S Xe = true) :
    (decide ((enc_bound Xe) = []) || bytesLt (enc_bound S) (enc_bound Xe)) = true := by
  by_cases hXe : Xe = []
  · rw [hXe]
    simp [enc_bound]
  · have h1 : enc_bound Xe = encode_bytes Xe := by
      unfold enc_bound
      rw [if_neg hXe]
    unfold lowLtUp at h
    simp only [Bool.or_eq_true, decide_eq_true_eq] at h
    rcases h with (hS | hXe') | hlt
    · rw [hS, h1]
      show (_ || bytesLt (enc_bound []) _) = true
      unfold enc_bound
      rw [if_pos rfl, bytesLt_nil_left (encode_ne_nil Xe)]
      simp
    · exact absurd hXe' hXe
    · by_cases hS : S = []
      · rw [hS, h1]
        show (_ || bytesLt (enc_bound []) _) = true
        unfold enc_bound
        rw [if_pos rfl, bytesLt_nil_left (encode_ne_nil Xe)]
        simp
      · have h2 : enc_bound S = encode_bytes S := by
          unfold enc_bound
          rw [if_neg hS]
        rw [h1, h2, encode_lt_iff, hlt]
        simp

/-- Characterization of `handle_backup_task` on a connected sink with total
collaborators: the messages are exactly one response per planned unit, in
order, followed by the terminal sentinel, where each response carries its
unit's raw bounds and the unit's own error, if any. -/
theorem handle_characterization
    (c : Collab) (snapF : Nat → Nat × Nat → Peer → Nat)
    (wF : Nat → Nat → Option Bytes → Option Bytes → String → Nat →
      Except Nat (List File × Nat))
    (hs : ∀ n ep p, c.snapshot n ep p = .ok (snapF n ep p))
    (hw : ∀ s ts a b nm st, c.run_worker s ts a b nm st = some (wF s ts a b nm st))
    (sid : Nat) (dir : Bytes → List RegionInfo) (Sraw Eraw : Bytes)
    (ts1 ts2 st : Nat) (branges : List BackupRange)
    (hseek : seek_backup_range sid dir (key_of_raw Sraw) (key_of_raw Eraw) =
      some branges)
    (hdec : ∀ br ∈ branges, (raw_of_key br.start_key).isSome ∧
      (raw_of_key br.end_key).isSome) :
    ∃ resps, handle_backup_task c sid dir
        { start_key := Sraw, end_key := Eraw, start_ts := ts1, end_ts := ts2,
          storage := st, resp_connected := true } =
        some (resps.map some ++ [none]) ∧
      List.Forall₂ (fun (br : BackupRange) (r : BackupResponse) =>
        raw_of_key br.start_key = some r.start_key ∧
        raw_of_key br.end_key = some r.end_key ∧
        r.error = (match unit_outcome snapF wF sid ts2 st br with
          | .ok _ => none
          | .error e => some e)) branges resps := by
  have hdisp := dispatch_all_eq c snapF wF hs hw sid ts2 st branges
  have hfm : ((branges.map
      (fun br => (br, unit_outcome snapF wF sid ts2 st br))).map some).filterMap
        id =
      branges.map (fun br => (br, unit_outcome snapF wF sid ts2 st br)) :=
    filterMap_id_map_some _
  have hdec' : ∀ pr ∈ branges.map
      (fun br => (br, unit_outcome snapF wF sid ts2 st br)),
      (raw_of_key (Prod.fst pr).start_key).isSome ∧
        (raw_of_key (Prod.fst pr).end_key).isSome := by
    intro pr hpr
    obtain ⟨br, hbr, rfl⟩ := List.mem_map.mp hpr
    exact hdec br hbr
  obtain ⟨resps, hcol, hrel⟩ := collect_loop_total ts1 ts2 _ hdec'
  refine ⟨resps, ?_, ?_⟩
  · unfold handle_backup_task
    simp only [hseek, hdisp, hfm, hcol]
    simp
  · have h2 := List.forall₂_map_left_iff.mp hrel
    exact h2.imp (fun {br r} h => h)

theorem countP_congr_mem {α : Type} (p q : α → Bool) :
    ∀ (l : List α), (∀ a ∈ l, p a = q a) → l.countP p = l.countP q := by
  intro l
  induction l with
  | nil => exact fun _ => rfl
  | cons a t ih =>
    intro h
    rw [List.countP_cons, List.countP_cons, h a (by simp),
      ih (fun x hx => h x (by simp [hx]))]

theorem countP_forall₂ {α β : Type} (R : α → β → Prop) (p : α → Bool)
    (q : β → Bool) :
    ∀ {l1 : List α} {l2 : List β}, List.Forall₂ R l1 l2 →
    (∀ a b, a ∈ l1 → R a b → p a = q b) → l1.countP p = l2.countP q := by
  intro l1 l2 h
  induction h with
  | nil => exact fun _ => rfl
  | @cons a b t1 t2 hab htail ih =>
    intro hpq
    rw [List.countP_cons, List.countP_cons, hpq a b (by simp) hab,
      ih (fun x y hx => hpq x y (by simp [hx]))]

theorem filterMap_id_msgs {α : Type} (l : List α) :
    (l.map some ++ [none]).filterMap id = l := by
  rw [List.filterMap_append, filterMap_id_map_some]
  simp

/-- Raw-level soundness of the planner over a shard directory: every emitted
unit belongs to a locally-led shard and carries exactly the spec's clipped
range, encoded. -/
theorem seek_loop_mem_raw (sid : Nat) (S E : Bytes) (shards : List RawShard)
    (res : List BackupRange)
    (h : seek_loop sid (key_of_raw S) (key_of_raw E)
      (dir_seek (shards.map toRegionInfo) (enc_bound S)) = some res) :
    ∀ br ∈ res, ∃ Y, Y ∈ shards ∧ Y.role = StateRole.Leader ∧
      br.region = toRegion Y ∧
      br.start_key = key_of_raw (lowerMax S Y.start_raw) ∧
      br.end_key = key_of_raw (upperMin E Y.end_raw) := by
  intro br hbr
  obtain ⟨i, hi, hrole, hreg, hsk, hek, _⟩ :=
    seek_loop_mem sid (key_of_raw S) (key_of_raw E) _ res h br hbr
  have hi' : i ∈ shards.map toRegionInfo := List.mem_of_mem_filter hi
  obtain ⟨Y, hY, rfl⟩ := List.mem_map.mp hi'
  refine ⟨Y, hY, hrole, hreg, ?_, ?_⟩
  · rw [hsk]
    exact clip_start_raw S Y
  · rw [hek]
    exact clip_end_raw E Y

/-- Claim C1 — for every locally-led shard X that intersects the nonempty
user range [S, E), the planner emits exactly one `BackupRange`, and the task
emits exactly one response, whose raw key range equals
`[max(S, X.start), min(E, X.end))`, with the empty key denoting the unbounded
side.  A shard fully contained in [S, E) is the special case where the maxima
are the shard's own bounds. -/
theorem C1_coverage_and_clipping
    (c : Collab) (snapF : Nat → Nat × Nat → Peer → Nat)
    (wF : Nat → Nat → Option Bytes → Option Bytes → String → Nat →
      Except Nat (List File × Nat))
    (hs : ∀ n ep p, c.snapshot n ep p = .ok (snapF n ep p))
    (hw : ∀ s ts a b nm st, c.run_worker s ts a b nm st = some (wF s ts a b nm st))
    (sid : Nat) (shards1 shards2 : List RawShard) (X : RawShard)
    (S E : Bytes) (ts1 ts2 st : Nat)
    (hsort : (shards1 ++ X :: shards2).Pairwise
      (fun a b => lowerLtB a.start_raw b.start_raw = true ∧
        rawIntersects a.start_raw a.end_raw b.start_raw b.end_raw = false))
    (hpeer : ∀ r ∈ shards1 ++ X :: shards2, r.role = StateRole.Leader →
      (find_peer (toRegion r) sid).isSome)
    (hXlead : X.role = StateRole.Leader)
    (hSE : lowLtUp S E = true)
    (hXne : lowLtUp X.start_raw X.end_raw = true)
    (hint : rawIntersects S E X.start_raw X.end_raw = true) :
    (∃ res, seek_backup_range sid
        (dir_seek ((shards1 ++ X :: shards2).map toRegionInfo))
        (key_of_raw S) (key_of_raw E) = some res ∧
      res.countP (fun br =>
        decide (br.start_key = key_of_raw (lowerMax S X.start_raw) ∧
          br.end_key = key_of_raw (upperMin E X.end_raw))) = 1) ∧
    (∃ msgs, handle_backup_task c sid
        (dir_seek ((shards1 ++ X :: shards2).map toRegionInfo))
        { start_key := S, end_key := E, start_ts := ts1, end_ts := ts2,
          storage := st, resp_connected := true } = some msgs ∧
      (msgs.filterMap id).countP (fun r =>
        decide (r.start_key = lowerMax S X.start_raw ∧
          r.end_key = upperMin E X.end_raw)) = 1) := by
  have hint' := hint
  unfold rawIntersects at hint'
  rw [Bool.and_eq_true] at hint'
  obtain ⟨hSXe, hXsE⟩ := hint'
  have hclipne : lowLtUp (lowerMax S X.start_raw) (upperMin E X.end_raw) = true :=
    clip_nonempty hSE hXne hSXe hXsE
  have hpred : (decide ((toRegionInfo X).region.end_key = []) ||
      bytesLt (enc_bound S) (toRegionInfo X).region.end_key) = true :=
    dir_pred_of_lowLtUp hSXe
  have hdecomp : dir_seek ((shards1 ++ X :: shards2).map toRegionInfo)
      (enc_bound S) =
      ((shards1.map toRegionInfo).filter (fun info =>
        decide (info.region.end_key = []) ||
          bytesLt (enc_bound S) info.region.end_key)) ++
      (toRegionInfo X) ::
      ((shards2.map toRegionInfo).filter (fun info =>
        decide (info.region.end_key = []) ||
          bytesLt (enc_bound S) info.region.end_key)) := by
    unfold dir_seek
    rw [List.map_append, List.map_cons, List.filter_append, List.filter_cons,
      if_pos hpred]
  have hpair_infos : ((shards1 ++ X :: shards2).map toRegionInfo).Pairwise infoLt :=
    List.pairwise_map.mpr (hsort.imp (fun h => infoLt_of_lowerLtB h.1))
  have hpair_f : (dir_seek ((shards1 ++ X :: shards2).map toRegionInfo)
      (enc_bound S)).Pairwise infoLt :=
    hpair_infos.sublist (List.filter_sublist _)
  have hpeer_f : ∀ i ∈ dir_seek ((shards1 ++ X :: shards2).map toRegionInfo)
      (enc_bound S), i.role = StateRole.Leader → (find_peer i.region sid).isSome := by
    intro i hi
    have hmem : i ∈ (shards1 ++ X :: shards2).map toRegionInfo :=
      List.mem_of_mem_filter hi
    obtain ⟨Y, hY, rfl⟩ := List.mem_map.mp hmem
    exact hpeer Y hY
  have hnb : breakTest (key_of_raw E) (toRegionInfo X) = false := by
    by_cases hE : E = []
    · have h1 : key_of_raw E = none := by
        unfold key_of_raw
        rw [if_pos hE]
      rw [h1]
      rfl
    · have h1 : key_of_raw E = some (encode_bytes E) := by
        unfold key_of_raw
        rw [if_neg hE]
      rw [h1]
      show bytesLt (encode_bytes E) (enc_bound X.start_raw) = false
      by_cases hXs : X.start_raw = []
      · unfold enc_bound
        rw [if_pos hXs]
        exact bytesLt_nil_right _
      · unfold enc_bound
        rw [if_neg hXs, encode_lt_iff]
        unfold lowLtUp at hXsE
        simp only [Bool.or_eq_true, decide_eq_true_eq] at hXsE
        rcases hXsE with (h | h) | h
        · exact absurd h hXs
        · exact absurd h hE
        · exact bytesLt_asymm h
  rw [hdecomp] at hpair_f hpeer_f
  obtain ⟨res, p, hloop, hp, hcount, hchar⟩ :=
    seek_loop_core sid (key_of_raw S) (key_of_raw E) _ (toRegionInfo X) _
      hpair_f hpeer_f hXlead hnb
  have hloop' : seek_loop sid (key_of_raw S) (key_of_raw E)
      (dir_seek ((shards1 ++ X :: shards2).map toRegionInfo) (enc_bound S)) =
      some res := by
    rw [hdecomp]
    exact hloop
  have hseek : seek_backup_range sid
      (dir_seek ((shards1 ++ X :: shards2).map toRegionInfo))
      (key_of_raw S) (key_of_raw E) = some res := by
    rw [seek_backup_range_raw]
    exact hloop'
  have hmemraw := seek_loop_mem_raw sid S E (shards1 ++ X :: shards2) res hloop'
  -- a non-X unit never carries X's clipped range
  have hother : ∀ Y, Y ∈ shards1 ++ X :: shards2 → toRegion Y ≠ toRegion X →
      ¬(lowerMax S Y.start_raw = lowerMax S X.start_raw ∧
        upperMin E Y.end_raw = upperMin E X.end_raw) := by
    intro Y hYmem hYne ⟨hll, huu⟩
    have hYneX : Y ≠ X := fun he => hYne (by rw [he])
    have hints : rawIntersects X.start_raw X.end_raw Y.start_raw Y.end_raw = true := by
      refine squeeze_intersect (lowerMax_lbLe S X.start_raw)
        (upperMin_ubLe E X.end_raw) ?_ ?_ hclipne
      · rw [← hll]
        exact lowerMax_lbLe S Y.start_raw
      · rw [← huu]
        exact upperMin_ubLe E Y.end_raw
    rcases List.mem_append.mp hYmem with hY1 | hY2
    · have hrel := List.pairwise_append.mp hsort
      have := (hrel.2.2 Y hY1 X (by simp)).2
      rw [rawIntersects_symm] at this
      rw [this] at hints
      exact absurd hints (by simp)
    · rcases List.mem_cons.mp hY2 with he | hY2'
      · exact hYneX he
      · have hrel := List.pairwise_append.mp hsort
        have hXpair := List.pairwise_cons.mp hrel.2.1
        have := (hXpair.1 Y hY2').2
        rw [this] at hints
        exact absurd hints (by simp)
  -- the brange-level count over the range predicate
  have hcount_range : res.countP (fun br =>
      decide (br.start_key = key_of_raw (lowerMax S X.start_raw) ∧
        br.end_key = key_of_raw (upperMin E X.end_raw))) = 1 := by
    rw [countP_congr_mem _ (fun br => decide (br.region = (toRegionInfo X).region))
      res ?_]
    · exact hcount
    · intro br hbr
      obtain ⟨Y, hY, hYlead, hYreg, hYsk, hYek⟩ := hmemraw br hbr
      by_cases hreg : br.region = (toRegionInfo X).region
      · have hbrx := hchar br hbr hreg
        have h1 : br.start_key = key_of_raw (lowerMax S X.start_raw) := by
          rw [hbrx]
          exact clip_start_raw S X
        have h2 : br.end_key = key_of_raw (upperMin E X.end_raw) := by
          rw [hbrx]
          exact clip_end_raw E X
        simp [h1, h2, hreg]
      · have hne : toRegion Y ≠ toRegion X := by
          intro he
          exact hreg (by rw [hYreg, he]; rfl)
        have hnr : ¬(br.start_key = key_of_raw (lowerMax S X.start_raw) ∧
            br.end_key = key_of_raw (upperMin E X.end_raw)) := by
          intro ⟨h1, h2⟩
          rw [hYsk] at h1
          rw [hYek] at h2
          exact hother Y hY hne
            ⟨key_of_raw_injective h1, key_of_raw_injective h2⟩
        simp [hnr, hreg]
  refine ⟨⟨res, hseek, hcount_range⟩, ?_⟩
  have hdec : ∀ br ∈ res, (raw_of_key br.start_key).isSome ∧
      (raw_of_key br.end_key).isSome := by
    intro br hbr
    obtain ⟨Y, hY, _, _, hYsk, hYek⟩ := hmemraw br hbr
    rw [hYsk, hYek, raw_of_key_key_of_raw, raw_of_key_key_of_raw]
    exact ⟨rfl, rfl⟩
  obtain ⟨resps, hhandle, hrel⟩ := handle_characterization c snapF wF hs hw sid
    _ S E ts1 ts2 st res hseek hdec
  refine ⟨resps.map some ++ [none], hhandle, ?_⟩
  rw [filterMap_id_msgs]
  rw [← hcount_range]
  symm
  refine countP_forall₂ _ _ _ hrel ?_
  intro br r hbr hR
  obtain ⟨hr1, hr2, _⟩ := hR
  obtain ⟨Y, hY, _, _, hYsk, hYek⟩ := hmemraw br hbr
  have hrs : r.start_key = lowerMax S Y.start_raw := by
    rw [hYsk, raw_of_key_key_of_raw] at hr1
    exact (Option.some.injEq _ _).mp hr1.symm
  have hre : r.end_key = upperMin E Y.end_raw := by
    rw [hYek, raw_of_key_key_of_raw] at hr2
    exact (Option.some.injEq _ _).mp hr2.symm
  by_cases hb : lowerMax S Y.start_raw = lowerMax S X.start_raw ∧
      upperMin E Y.end_raw = upperMin E X.end_raw
  · have h1 : br.start_key = key_of_raw (lowerMax S X.start_raw) := by
      rw [hYsk, hb.1]
    have h2 : br.end_key = key_of_raw (upperMin E X.end_raw) := by
      rw [hYek, hb.2]
    simp [h1, h2, hrs, hre, hb.1, hb.2]
  · have h1 : ¬(br.start_key = key_of_raw (lowerMax S X.start_raw) ∧
        br.end_key = key_of_raw (upperMin E X.end_raw)) := by
      intro ⟨ha, hbb⟩
      rw [hYsk] at ha
      rw [hYek] at hbb
      exact hb ⟨key_of_raw_injective ha, key_of_raw_injective hbb⟩
    have h2 : ¬(r.start_key = lowerMax S X.start_raw ∧
        r.end_key = upperMin E X.end_raw) := by
      intro ⟨ha, hbb⟩
      rw [hrs] at ha
      rw [hre] at hbb
      exact hb ⟨ha, hbb⟩
    simp [h1, h2]

/-! ### Concrete fixtures used by the witnesses -/

/-- Collaborators that always succeed: every snapshot is granted and every
worker returns no files and empty statistics. -/
def cWit : Collab :=
  { snapshot := fun _ _ _ => Except.ok 0,
    run_worker := fun _ _ _ _ _ _ => some (Except.ok ([], 0)) }

/-- A locally-led shard over raw range [\"1\", \"2\") with a peer on store 1. -/
def shardW : RawShard :=
  { id := 1, epoch_conf_ver := 0, epoch_version := 0, start_raw := [49],
    end_raw := [50], peers := [{ id := 1, peer_store_id := 1 }],
    role := StateRole.Leader }

/-- A locally-led shard over raw range [\"3\", \"4\") with a peer on store 1. -/
def shardW2 : RawShard :=
  { id := 2, epoch_conf_ver := 0, epoch_version := 0, start_raw := [51],
    end_raw := [52], peers := [{ id := 1, peer_store_id := 1 }],
    role := StateRole.Leader }

/-- A locally-led shard with no peer at all (so no local peer resolves). -/
def shardNoPeer : RawShard :=
  { id := 3, epoch_conf_ver := 0, epoch_version := 0, start_raw := [49],
    end_raw := [50], peers := [], role := StateRole.Leader }

theorem forall₂_mem_left {α β : Type} {R : α → β → Prop} :
    ∀ {l1 : List α} {l2 : List β}, List.Forall₂ R l1 l2 →
    ∀ {a : α}, a ∈ l1 → ∃ b ∈ l2, R a b := by
  intro l1 l2 h
  induction h with
  | nil => intro a ha; simp at ha
  | @cons x y t1 t2 hxy htail ih =>
    intro a ha
    rcases List.mem_cons.mp ha with rfl | ha'
    · exact ⟨y, by simp, hxy⟩
    · obtain ⟨b, hb, hR⟩ := ih ha'
      exact ⟨b, by simp [hb], hR⟩

/-- Witness for claim C1: the single shard [\"1\", \"2\") under the unbounded
user range is reported exactly once with its own raw range. -/
theorem C1_coverage_and_clipping_witness :
    ∃ msgs, handle_backup_task cWit 1
        (dir_seek (([shardW] : List RawShard).map toRegionInfo))
        { start_key := [], end_key := [], start_ts := 1, end_ts := 1,
          storage := 0, resp_connected := true } = some msgs ∧
      (msgs.filterMap id).countP (fun r =>
        decide (r.start_key = lowerMax [] shardW.start_raw ∧
          r.end_key = upperMin [] shardW.end_raw)) = 1 :=
  (C1_coverage_and_clipping cWit (fun _ _ _ => 0)
    (fun _ _ _ _ _ _ => Except.ok ([], 0)) (fun _ _ _ => rfl)
    (fun _ _ _ _ _ _ => rfl) 1 [] [] shardW [] [] 1 1 0
    (by decide) (by decide) (by decide) (by decide) (by decide) (by decide)).2

/-- Claim C2 (counterexample) — at the explicit input where the user's end
bound `"1"` equals the shard's start (`end ≤ shard_start` with equality), the
iteration does not stop: it still emits a unit for that shard. -/
theorem C2_counterexample :
    bytesLt (toRegion shardW).start_key (encode_bytes [49]) = false ∧
    seek_loop 1 (key_of_raw []) (key_of_raw [49]) [toRegionInfo shardW] =
      some [{ start_key := some (encode_bytes [49]),
              end_key := some (encode_bytes [49]),
              region := toRegion shardW,
              leader := { id := 1, peer_store_id := 1 } }] := by
  constructor
  · decide
  · decide

/-- Claim C2 (amended) — the iteration stops exactly when the user's end
bound is set and strictly below the shard's start: then no unit is emitted
for that shard or any later shard. -/
theorem C2_termination_amended (sid : Nat) (sk : Option Bytes) (e : Bytes)
    (info : RegionInfo) (rest : List RegionInfo)
    (h : bytesLt e info.region.start_key = true) :
    seek_loop sid sk (some e) (info :: rest) = some [] := by
  rw [seek_loop_cons]
  have hb : breakTest (some e) info = true := h
  rw [hb]
  rfl

/-- Witness for the amended claim C2: with end bound `"0"` strictly below the
shard start `"1"`, the loop emits nothing. -/
theorem C2_termination_amended_witness :
    seek_loop 1 none (some (encode_bytes [48])) [toRegionInfo shardW] = some [] :=
  C2_termination_amended 1 none (encode_bytes [48]) (toRegionInfo shardW) []
    (by decide)

/-- Claim C3 — when the user's end bound equals a locally-led shard's start
(and the user's start does not exceed it), clipping collapses to the empty
interval, yet the planner still emits the degenerate unit and the task still
produces a response with that degenerate range. -/
theorem C3_degenerate_unit
    (c : Collab) (snapF : Nat → Nat × Nat → Peer → Nat)
    (wF : Nat → Nat → Option Bytes → Option Bytes → String → Nat →
      Except Nat (List File × Nat))
    (hs : ∀ n ep p, c.snapshot n ep p = .ok (snapF n ep p))
    (hw : ∀ s ts a b nm st, c.run_worker s ts a b nm st = some (wF s ts a b nm st))
    (sid : Nat) (shards1 shards2 : List RawShard) (X : RawShard)
    (S : Bytes) (ts1 ts2 st : Nat)
    (hsort : (shards1 ++ X :: shards2).Pairwise
      (fun a b => lowerLtB a.start_raw b.start_raw = true))
    (hpeer : ∀ r ∈ shards1 ++ X :: shards2, r.role = StateRole.Leader →
      (find_peer (toRegion r) sid).isSome)
    (hXlead : X.role = StateRole.Leader)
    (hXs : X.start_raw ≠ [])
    (hXne : lowLtUp X.start_raw X.end_raw = true)
    (hS : lowerMax S X.start_raw = X.start_raw) :
    (∃ res br, seek_backup_range sid
        (dir_seek ((shards1 ++ X :: shards2).map toRegionInfo))
        (key_of_raw S) (key_of_raw X.start_raw) = some res ∧ br ∈ res ∧
      br.start_key = key_of_raw X.start_raw ∧
      br.end_key = key_of_raw X.start_raw) ∧
    (∃ msgs r, handle_backup_task c sid
        (dir_seek ((shards1 ++ X :: shards2).map toRegionInfo))
        { start_key := S, end_key := X.start_raw, start_ts := ts1,
          end_ts := ts2, storage := st, resp_connected := true } = some msgs ∧
      some r ∈ msgs ∧ r.start_key = X.start_raw ∧ r.end_key = X.start_raw) := by
  have hupper : upperMin X.start_raw X.end_raw = X.start_raw := by
    unfold upperMin
    rw [if_neg hXs]
    unfold lowLtUp at hXne
    simp only [Bool.or_eq_true, decide_eq_true_eq] at hXne
    rcases hXne with (h | h) | h
    · exact absurd h hXs
    · simp [h]
    · have hXe : X.end_raw ≠ [] := by
        intro he
        rw [he, bytesLt_nil_right] at h
        exact absurd h (by simp)
      rw [if_neg hXe, if_pos h]
  have hSXe : lowLtUp S X.end_raw = true := by
    by_cases hSnil : S = []
    · unfold lowLtUp
      simp [hSnil]
    · unfold lowerMax at hS
      rw [if_neg hSnil, if_neg hXs] at hS
      by_cases hlt : bytesLt S X.start_raw = true
      · unfold lowLtUp at hXne ⊢
        simp only [Bool.or_eq_true, decide_eq_true_eq] at hXne ⊢
        rcases hXne with (h | h) | h
        · exact absurd h hXs
        · exact Or.inl (Or.inr h)
        · exact Or.inr (bytesLt_trans hlt h)
      · rw [if_neg hlt] at hS
        rw [hS]
        exact hXne
  have hpred : (decide ((toRegionInfo X).region.end_key = []) ||
      bytesLt (enc_bound S) (toRegionInfo X).region.end_key) = true :=
    dir_pred_of_lowLtUp hSXe
  have hdecomp : dir_seek ((shards1 ++ X :: shards2).map toRegionInfo)
      (enc_bound S) =
      ((shards1.map toRegionInfo).filter (fun info =>
        decide (info.region.end_key = []) ||
          bytesLt (enc_bound S) info.region.end_key)) ++
      (toRegionInfo X) ::
      ((shards2.map toRegionInfo).filter (fun info =>
        decide (info.region.end_key = []) ||
          bytesLt (enc_bound S) info.region.end_key)) := by
    unfold dir_seek
    rw [List.map_append, List.map_cons, List.filter_append, List.filter_cons,
      if_pos hpred]
  have hpair_infos : ((shards1 ++ X :: shards2).map toRegionInfo).Pairwise infoLt :=
    List.pairwise_map.mpr (hsort.imp (fun h => infoLt_of_lowerLtB h))
  have hpair_f : (dir_seek ((shards1 ++ X :: shards2).map toRegionInfo)
      (enc_bound S)).Pairwise infoLt :=
    hpair_infos.sublist (List.filter_sublist _)
  have hpeer_f : ∀ i ∈ dir_seek ((shards1 ++ X :: shards2).map toRegionInfo)
      (enc_bound S), i.role = StateRole.Leader → (find_peer i.region sid).isSome := by
    intro i hi
    have hmem : i ∈ (shards1 ++ X :: shards2).map toRegionInfo :=
      List.mem_of_mem_filter hi
    obtain ⟨Y, hY, rfl⟩ := List.mem_map.mp hmem
    exact hpeer Y hY
  have hnb : breakTest (key_of_raw X.start_raw) (toRegionInfo X) = false := by
    have h1 : key_of_raw X.start_raw = some (encode_bytes X.start_raw) := by
      unfold key_of_raw
      rw [if_neg hXs]
    rw [h1]
    show bytesLt (encode_bytes X.start_raw) (enc_bound X.start_raw) = false
    unfold enc_bound
    rw [if_neg hXs]
    exact bytesLt_irrefl _
  rw [hdecomp] at hpair_f hpeer_f
  obtain ⟨res, p, hloop, hp, hcount, hchar⟩ :=
    seek_loop_core sid (key_of_raw S) (key_of_raw X.start_raw) _
      (toRegionInfo X) _ hpair_f hpeer_f hXlead hnb
  have hloop' : seek_loop sid (key_of_raw S) (key_of_raw X.start_raw)
      (dir_seek ((shards1 ++ X :: shards2).map toRegionInfo) (enc_bound S)) =
      some res := by
    rw [hdecomp]
    exact hloop
  have hseek : seek_backup_range sid
      (dir_seek ((shards1 ++ X :: shards2).map toRegionInfo))
      (key_of_raw S) (key_of_raw X.start_raw) = some res := by
    rw [seek_backup_range_raw]
    exact hloop'
  have hmemX : ∃ br ∈ res, decide (br.region = (toRegionInfo X).region) = true := by
    by_contra hno
    push_neg at hno
    have : res.countP (fun br => decide (br.region = (toRegionInfo X).region)) = 0 := by
      rw [List.countP_eq_zero]
      intro a ha
      exact hno a ha
    rw [this] at hcount
    exact absurd hcount (by simp)
  obtain ⟨br, hbr, hbreg⟩ := hmemX
  have hbreg' : br.region = (toRegionInfo X).region := by simpa using hbreg
  have hbrx := hchar br hbr hbreg'
  have hbrs : br.start_key = key_of_raw X.start_raw := by
    rw [hbrx]
    show clip_start (key_of_raw S) (toRegion X) = _
    rw [clip_start_raw, hS]
  have hbre : br.end_key = key_of_raw X.start_raw := by
    rw [hbrx]
    show clip_end (key_of_raw X.start_raw) (toRegion X) = _
    rw [clip_end_raw, hupper]
  refine ⟨⟨res, br, hseek, hbr, hbrs, hbre⟩, ?_⟩
  have hmemraw := seek_loop_mem_raw sid S X.start_raw (shards1 ++ X :: shards2)
    res hloop'
  have hdec : ∀ b ∈ res, (raw_of_key b.start_key).isSome ∧
      (raw_of_key b.end_key).isSome := by
    intro b hb
    obtain ⟨Y, _, _, _, hYsk, hYek⟩ := hmemraw b hb
    rw [hYsk, hYek, raw_of_key_key_of_raw, raw_of_key_key_of_raw]
    exact ⟨rfl, rfl⟩
  obtain ⟨resps, hhandle, hrel⟩ := handle_characterization c snapF wF hs hw sid
    _ S X.start_raw ts1 ts2 st res hseek hdec
  obtain ⟨r, hrmem, hR⟩ := forall₂_mem_left hrel hbr
  obtain ⟨hr1, hr2, _⟩ := hR
  refine ⟨resps.map some ++ [none], r, hhandle, ?_, ?_, ?_⟩
  · exact List.mem_append.mpr (Or.inl (List.mem_map.mpr ⟨r, hrmem, rfl⟩))
  · rw [hbrs, raw_of_key_key_of_raw] at hr1
    exact ((Option.some.injEq _ _).mp hr1).symm
  · rw [hbre, raw_of_key_key_of_raw] at hr2
    exact ((Option.some.injEq _ _).mp hr2).symm

/-- Witness for claim C3: user range ["", "1") against the shard ["1", "2")
still yields the degenerate ("1", "1") unit and its response. -/
theorem C3_degenerate_unit_witness :
    (∃ res br, seek_backup_range 1
        (dir_seek (([shardW] : List RawShard).map toRegionInfo))
        (key_of_raw []) (key_of_raw shardW.start_raw) = some res ∧ br ∈ res ∧
      br.start_key = key_of_raw shardW.start_raw ∧
      br.end_key = key_of_raw shardW.start_raw) ∧
    (∃ msgs r, handle_backup_task cWit 1
        (dir_seek (([shardW] : List RawShard).map toRegionInfo))
        { start_key := [], end_key := shardW.start_raw, start_ts := 1,
          end_ts := 1, storage := 0, resp_connected := true } = some msgs ∧
      some r ∈ msgs ∧ r.start_key = shardW.start_raw ∧
      r.end_key = shardW.start_raw) :=
  C3_degenerate_unit cWit (fun _ _ _ => 0)
    (fun _ _ _ _ _ _ => Except.ok ([], 0)) (fun _ _ _ => rfl)
    (fun _ _ _ _ _ _ => rfl) 1 [] [] shardW [] 1 1 0
    (by decide) (by decide) (by decide) (by decide) (by decide) (by decide)

/-- Claim C4 — whenever `handle_backup_task` completes (sends its message
sequence without panicking), the terminal sentinel `none` is sent exactly
once, and it is the last message of the stream. -/
theorem C4_terminal_sentinel (c : Collab) (sid : Nat)
    (dir : Bytes → List RegionInfo) (task : Task)
    (msgs : List (Option BackupResponse))
    (h : handle_backup_task c sid dir task = some msgs) :
    msgs ≠ [] ∧ msgs.getLast? = some none ∧
      msgs.countP (fun m => m.isNone) = 1 ∧
      ∀ m ∈ msgs.dropLast, m.isSome := by
  unfold handle_backup_task at h
  simp only [] at h
  cases h1 : seek_backup_range sid dir (key_of_raw task.start_key)
      (key_of_raw task.end_key) with
  | none =>
    rw [h1] at h
    exact Option.noConfusion h
  | some branges =>
    rw [h1] at h
    simp only [] at h
    cases h2 : dispatch_all c sid task.end_ts task.storage branges with
    | none =>
      rw [h2] at h
      exact Option.noConfusion h
    | some sent =>
      rw [h2] at h
      simp only [] at h
      cases hc : task.resp_connected with
      | false =>
        rw [hc] at h
        cases h3 : collect_loop false task.start_ts task.end_ts
            (sent.filterMap id) with
        | none =>
          rw [h3] at h
          exact Option.noConfusion h
        | some resps =>
          rw [h3] at h
          simp at h
      | true =>
        rw [hc] at h
        cases h3 : collect_loop true task.start_ts task.end_ts
            (sent.filterMap id) with
        | none =>
          rw [h3] at h
          exact Option.noConfusion h
        | some resps =>
          rw [h3] at h
          simp only [if_true] at h
          have hmsgs : msgs = resps.map some ++ [none] :=
            ((Option.some.injEq _ _).mp h).symm
          subst hmsgs
          refine ⟨by simp, List.getLast?_concat _, ?_, ?_⟩
          · rw [List.countP_append, List.countP_map]
            simp
          · intro m hm
            rw [List.dropLast_concat] at hm
            obtain ⟨r, _, rfl⟩ := List.mem_map.mp hm
            rfl

/-- The expected response of the witness task: the single shard's range with
no files and no error. -/
def respW : BackupResponse :=
  { start_key := [49], end_key := [50], files := [], error := none }

/-- Witness for claim C4 at a concrete completed task. -/
theorem C4_terminal_sentinel_witness :
    ([some respW, none] : List (Option BackupResponse)) ≠ [] ∧
    ([some respW, none] : List (Option BackupResponse)).getLast? = some none ∧
    ([some respW, none] : List (Option BackupResponse)).countP
      (fun m => m.isNone) = 1 ∧
    ∀ m ∈ ([some respW, none] : List (Option BackupResponse)).dropLast,
      m.isSome :=
  C4_terminal_sentinel cWit 1
    (dir_seek (([shardW] : List RawShard).map toRegionInfo))
    { start_key := [], end_key := [], start_ts := 1, end_ts := 1,
      storage := 0, resp_connected := true }
    [some respW, none] (by decide)

/-- Claim C5 — a task with `start_ts ≠ end_ts` is refused by `run`: the only
message sent on the (connected) response channel is the terminal sentinel;
no planning, dispatch or per-unit response happens. -/
theorem C5_invalid_task_refused (c : Collab) (sid : Nat)
    (dir : Bytes → List RegionInfo) (task : Task)
    (hts : task.start_ts ≠ task.end_ts) (hconn : task.resp_connected = true) :
    run c sid dir task = some [none] := by
  unfold run
  rw [if_neg hts, hconn]
  rfl

/-- Witness for claim C5: a start timestamp 0 against an end timestamp 1. -/
theorem C5_invalid_task_refused_witness :
    run cWit 1 (dir_seek (([shardW] : List RawShard).map toRegionInfo))
      { start_key := [], end_key := [], start_ts := 0, end_ts := 1,
        storage := 0, resp_connected := true } = some [none] :=
  C5_invalid_task_refused cWit 1
    (dir_seek (([shardW] : List RawShard).map toRegionInfo))
    { start_key := [], end_key := [], start_ts := 0, end_ts := 1,
      storage := 0, resp_connected := true } (by decide) rfl

/-- Collaborators whose engine refuses the snapshot for region 1 (a stale
epoch or lost leadership) but would serve any other region. -/
def cSnapFail : Collab :=
  { snapshot := fun n _ _ => if n = 1 then Except.error 7 else Except.ok 0,
    run_worker := fun _ _ _ _ _ _ => some (Except.ok ([], 0)) }

/-- Claim C6 (counterexample) — at the explicit input with two planned units
where the engine refuses the snapshot of the first, the whole task aborts
(`engine.snapshot(&ctx).unwrap()` panics): no response is produced for
either unit and no sentinel is sent, contradicting a unit-scoped error. -/
theorem C6_counterexample :
    handle_backup_task cSnapFail 1
      (dir_seek (([shardW, shardW2] : List RawShard).map toRegionInfo))
      { start_key := [], end_key := [], start_ts := 1, end_ts := 1,
        storage := 0, resp_connected := true } = none := by
  decide

/-- Claim C6 (amended) — failures of the worker pipeline after snapshot
acquisition are unit-scoped: with the engine granting every snapshot and no
worker panic, every planned unit yields exactly one response, a failed unit
carries its own error, and sibling units and the terminal sentinel are
unaffected. -/
theorem C6_unit_errors_isolated
    (c : Collab) (snapF : Nat → Nat × Nat → Peer → Nat)
    (wF : Nat → Nat → Option Bytes → Option Bytes → String → Nat →
      Except Nat (List File × Nat))
    (hs : ∀ n ep p, c.snapshot n ep p = .ok (snapF n ep p))
    (hw : ∀ s ts a b nm st, c.run_worker s ts a b nm st = some (wF s ts a b nm st))
    (sid : Nat) (dir : Bytes → List RegionInfo) (Sraw Eraw : Bytes)
    (ts1 ts2 st : Nat) (branges : List BackupRange)
    (hseek : seek_backup_range sid dir (key_of_raw Sraw) (key_of_raw Eraw) =
      some branges)
    (hdec : ∀ br ∈ branges, (raw_of_key br.start_key).isSome ∧
      (raw_of_key br.end_key).isSome) :
    ∃ resps : List BackupResponse, handle_backup_task c sid dir
        { start_key := Sraw, end_key := Eraw, start_ts := ts1, end_ts := ts2,
          storage := st, resp_connected := true } =
        some (resps.map some ++ [none]) ∧
      resps.length = branges.length ∧
      ∀ (i : Nat) (h1 : i < branges.length) (h2 : i < resps.length),
        (resps.get ⟨i, h2⟩).error =
          (match unit_outcome snapF wF sid ts2 st (branges.get ⟨i, h1⟩) with
           | .ok _ => none
           | .error e => some e) := by
  obtain ⟨resps, hh, hrel⟩ := handle_characterization c snapF wF hs hw sid dir
    Sraw Eraw ts1 ts2 st branges hseek hdec
  refine ⟨resps, hh, hrel.length_eq.symm, ?_⟩
  intro i h1 h2
  exact ((List.forall₂_iff_get.mp hrel).2 i h1 h2).2.2

/-- Worker outcomes of the mixed witness: the unit starting at encoded "1"
fails its scan, every other unit succeeds with no files. -/
def wFMix : Nat → Nat → Option Bytes → Option Bytes → String → Nat →
    Except Nat (List File × Nat) :=
  fun _ _ a _ _ _ =>
    if a = some (encode_bytes [49]) then Except.error 9 else Except.ok ([], 0)

/-- Collaborators realizing `wFMix` with an always-granting engine. -/
def cMix : Collab :=
  { snapshot := fun _ _ _ => Except.ok 0,
    run_worker := fun s ts a b nm st => some (wFMix s ts a b nm st) }

/-- The two plan units of the mixed witness. -/
def brW1 : BackupRange :=
  { start_key := some (encode_bytes [49]), end_key := some (encode_bytes [50]),
    region := toRegion shardW, leader := { id := 1, peer_store_id := 1 } }

/-- The second plan unit of the mixed witness. -/
def brW2 : BackupRange :=
  { start_key := some (encode_bytes [51]), end_key := some (encode_bytes [52]),
    region := toRegion shardW2, leader := { id := 1, peer_store_id := 1 } }

/-- Witness for the amended claim C6: two units, the first fails its scan,
the second succeeds; both get their own response and the sentinel follows. -/
theorem C6_unit_errors_isolated_witness :
    ∃ resps : List BackupResponse, handle_backup_task cMix 1
        (dir_seek (([shardW, shardW2] : List RawShard).map toRegionInfo))
        { start_key := [], end_key := [], start_ts := 1, end_ts := 1,
          storage := 0, resp_connected := true } =
        some (resps.map some ++ [none]) ∧
      resps.length = ([brW1, brW2] : List BackupRange).length ∧
      ∀ (i : Nat) (h1 : i < ([brW1, brW2] : List BackupRange).length)
        (h2 : i < resps.length),
        (resps.get ⟨i, h2⟩).error =
          (match unit_outcome (fun _ _ _ => 0) wFMix 1 1 0
              (([brW1, brW2] : List BackupRange).get ⟨i, h1⟩) with
           | .ok _ => none
           | .error e => some e) :=
  C6_unit_errors_isolated cMix (fun _ _ _ => 0) wFMix (fun _ _ _ => rfl)
    (fun _ _ _ _ _ _ => rfl) 1
    (dir_seek (([shardW, shardW2] : List RawShard).map toRegionInfo))
    [] [] 1 1 0 [brW1, brW2] (by decide) (by decide)

/-- Claim C7 (counterexample) — at the explicit input with a locally-led
shard that has no resolvable local peer followed by a healthy shard, the
planner does not skip and continue: `find_peer(...).unwrap()` panics and the
whole planning aborts, emitting nothing. -/
theorem C7_counterexample :
    seek_loop 1 none none
      (([shardNoPeer, shardW2] : List RawShard).map toRegionInfo) = none := by
  decide

/-- Claim C7 (amended) — a locally-led region reached by the planner whose
local peer cannot be resolved panics the planning loop (it does not skip). -/
theorem C7_no_peer_panics (sid : Nat) (sk ek : Option Bytes)
    (info : RegionInfo) (rest : List RegionInfo)
    (hbrk : breakTest ek info = false)
    (hlead : info.role = StateRole.Leader)
    (hpeer : find_peer info.region sid = none) :
    seek_loop sid sk ek (info :: rest) = none := by
  rw [seek_loop_cons, hbrk]
  simp only [Bool.false_eq_true, if_false, if_pos hlead, hpeer]

/-- Witness for the amended claim C7. -/
theorem C7_no_peer_panics_witness :
    seek_loop 1 none none [toRegionInfo shardNoPeer] = none :=
  C7_no_peer_panics 1 none none (toRegionInfo shardNoPeer) [] rfl rfl rfl

/-- Claim C8 (counterexample) — at the explicit input whose response sink is
dropped, the dispatcher does not ignore the send failure: the task aborts
(`unbounded_send(...).unwrap()` panics). -/
theorem C8_counterexample :
    handle_backup_task cWit 1
      (dir_seek (([shardW] : List RawShard).map toRegionInfo))
      { start_key := [], end_key := [], start_ts := 1, end_ts := 1,
        storage := 0, resp_connected := false } = none := by
  decide

/-- Claim C8 (amended) — when the response sink is dropped the dispatcher
panics on its first send (the task yields no message stream), although the
dispatch loop itself still submits every unit to the workers, whose
result-channel sends are ignored on failure. -/
theorem C8_disconnected_sink_panics
    (c : Collab) (snapF : Nat → Nat × Nat → Peer → Nat)
    (wF : Nat → Nat → Option Bytes → Option Bytes → String → Nat →
      Except Nat (List File × Nat))
    (hs : ∀ n ep p, c.snapshot n ep p = .ok (snapF n ep p))
    (hw : ∀ s ts a b nm st, c.run_worker s ts a b nm st = some (wF s ts a b nm st))
    (sid : Nat) (dir : Bytes → List RegionInfo) (task : Task)
    (hconn : task.resp_connected = false) :
    handle_backup_task c sid dir task = none ∧
    (∀ branges, seek_backup_range sid dir (key_of_raw task.start_key)
        (key_of_raw task.end_key) = some branges →
      dispatch_all c sid task.end_ts task.storage branges =
        some ((branges.map (fun br =>
          (br, unit_outcome snapF wF sid task.end_ts task.storage br))).map
            some)) := by
  constructor
  · unfold handle_backup_task
    dsimp only
    cases h1 : seek_backup_range sid dir (key_of_raw task.start_key)
        (key_of_raw task.end_key) with
    | none => rfl
    | some branges =>
      simp only []
      cases h2 : dispatch_all c sid task.end_ts task.storage branges with
      | none => rfl
      | some sent =>
        simp only []
        cases h3 : collect_loop task.resp_connected task.start_ts task.end_ts
            (sent.filterMap id) with
        | none => rfl
        | some resps =>
          simp only [hconn]
          rfl
  · intro branges _
    exact dispatch_all_eq c snapF wF hs hw sid task.end_ts task.storage branges

/-- Witness for the amended claim C8. -/
theorem C8_disconnected_sink_panics_witness :
    handle_backup_task cWit 1
      (dir_seek (([shardW] : List RawShard).map toRegionInfo))
      { start_key := [], end_key := [], start_ts := 1, end_ts := 1,
        storage := 0, resp_connected := false } = none ∧
    (∀ branges, seek_backup_range 1
        (dir_seek (([shardW] : List RawShard).map toRegionInfo))
        (key_of_raw []) (key_of_raw []) = some branges →
      dispatch_all cWit 1 1 0 branges =
        some ((branges.map (fun br =>
          (br, unit_outcome (fun _ _ _ => 0)
            (fun _ _ _ _ _ _ => Except.ok ([], 0)) 1 1 0 br))).map some)) :=
  C8_disconnected_sink_panics cWit (fun _ _ _ => 0)
    (fun _ _ _ _ _ _ => Except.ok ([], 0)) (fun _ _ _ => rfl)
    (fun _ _ _ _ _ _ => rfl) 1
    (dir_seek (([shardW] : List RawShard).map toRegionInfo))
    { start_key := [], end_key := [], start_ts := 1, end_ts := 1,
      storage := 0, resp_connected := false } rfl

/-- Claim C9 — the key round-trip laws: decoding an encoded raw key is the
identity for every byte sequence; an empty raw bound becomes the unbounded
`none` internally and maps back to the empty raw key on responses. -/
theorem C9_roundtrip_laws :
    (∀ l : Bytes, decode_bytes (encode_bytes l) = some l) ∧
    (∀ l : Bytes, raw_of_key (key_of_raw l) = some l) ∧
    key_of_raw [] = none ∧ raw_of_key none = some [] :=
  ⟨decode_encode, raw_of_key_key_of_raw, rfl, rfl⟩

/-- Erasure of the one field of a response that `task.start_ts` reaches: the
`start_version` stamped on each file. -/
def erase_start_version (r : BackupResponse) : BackupResponse :=
  { r with files := r.files.map (fun f => { f with start_version := 0 }) }

theorem collect_loop_start_ts (conn : Bool) (ts1 ts1' ts2 : Nat) :
    ∀ (results : List (BackupRange × Except Nat (List File × Nat))),
    (collect_loop conn ts1 ts2 results).map (List.map erase_start_version) =
      (collect_loop conn ts1' ts2 results).map (List.map erase_start_version) := by
  intro results
  induction results with
  | nil => rfl
  | cons pr rest ih =>
    obtain ⟨brange, res⟩ := pr
    rw [collect_loop_cons, collect_loop_cons]
    cases hsr : raw_of_key brange.start_key with
    | none => rfl
    | some sraw =>
      cases her : raw_of_key brange.end_key with
      | none => rfl
      | some eraw =>
        cases conn with
        | false =>
          cases res with
          | ok pair => obtain ⟨files, stat⟩ := pair; rfl
          | error e => rfl
        | true =>
          cases h1 : collect_loop true ts1 ts2 rest with
          | none =>
            cases h2 : collect_loop true ts1' ts2 rest with
            | none =>
              cases res with
              | ok pair => obtain ⟨files, stat⟩ := pair; rfl
              | error e => rfl
            | some l2 =>
              rw [h1, h2] at ih
              simp at ih
          | some l1 =>
            cases h2 : collect_loop true ts1' ts2 rest with
            | none =>
              rw [h1, h2] at ih
              simp at ih
            | some l2 =>
              rw [h1, h2] at ih
              simp only [Option.map_some', Option.some.injEq] at ih
              cases res with
              | ok pair =>
                obtain ⟨files, stat⟩ := pair
                simp only [if_true, Option.map_some', Option.some.injEq,
                  List.map_cons]
                rw [ih]
                simp only [List.cons.injEq, and_true]
                simp [erase_start_version, List.map_map]
              | error e =>
                simp only [if_true, Option.map_some', Option.some.injEq,
                  List.map_cons]
                rw [ih]

/-- Claim C10 — the observable behaviour of `handle_backup_task` does not
depend on `task.start_ts` except through the `start_version` stamped on each
file: two runs differing only in `start_ts` produce the same message stream
once that field is erased.  (The snapshot, scanner and workers receive only
`end_ts`.) -/
theorem C10_start_ts_independence (c : Collab) (sid : Nat)
    (dir : Bytes → List RegionInfo) (sk ek : Bytes) (ts1 v ts2 st : Nat)
    (conn : Bool) :
    (handle_backup_task c sid dir
        { start_key := sk, end_key := ek, start_ts := v, end_ts := ts2,
          storage := st, resp_connected := conn }).map
        (List.map (Option.map erase_start_version)) =
      (handle_backup_task c sid dir
        { start_key := sk, end_key := ek, start_ts := ts1, end_ts := ts2,
          storage := st, resp_connected := conn }).map
        (List.map (Option.map erase_start_version)) := by
  unfold handle_backup_task
  dsimp only
  cases h1 : seek_backup_range sid dir (key_of_raw sk) (key_of_raw ek) with
  | none => rfl
  | some branges =>
    simp only []
    cases h2 : dispatch_all c sid ts2 st branges with
    | none => rfl
    | some sent =>
      simp only []
      have hcl := collect_loop_start_ts conn v ts1 ts2 (sent.filterMap id)
      cases h3 : collect_loop conn v ts2 (sent.filterMap id) with
      | none =>
        cases h4 : collect_loop conn ts1 ts2 (sent.filterMap id) with
        | none => rfl
        | some l2 =>
          rw [h3, h4] at hcl
          simp at hcl
      | some l1 =>
        cases h4 : collect_loop conn ts1 ts2 (sent.filterMap id) with
        | none =>
          rw [h3, h4] at hcl
          simp at hcl
        | some l2 =>
          rw [h3, h4] at hcl
          simp only [Option.map_some', Option.some.injEq] at hcl
          cases conn with
          | false => rfl
          | true =>
            have hmm : ∀ (l : List BackupResponse),
                ((l.map some ++ [none]).map
                  (Option.map erase_start_version)) =
                (l.map erase_start_version).map some ++ [none] := by
              intro l
              simp [List.map_append, List.map_map, Function.comp]
            simp only [if_true, Option.map_some', Option.some.injEq]
            rw [hmm, hmm, hcl]

end Backup
